import Mathlib

/-!
# Elliptic-curve core of libzrtp (`zrtp_crypto_ec.c`)

A shallow embedding of the modular-arithmetic shorthands, of the affine point
addition `zrtp_ecAdd`, of the double-and-add `zrtp_ecMul`, of the key
generator `zrtp_ec_random_point` and of the curve tables with their selector
`zrtp_ec_init_params`, followed by the properties checked against them.

A `struct BigNum` holds a non-negative integer of any size and is a `Nat`
here.  The routines of the bignum engine (`bnAdd`, `bnSub`, `bnMod`, `bnInv`,
...) live outside `zrtp_crypto_ec.c`; each is given below by a definition
marked as modelled.
-/

namespace Zrtp

/-! ## The bignum engine -/

/-- Modelled from the spec: the engine's "add" (`bnAdd`, `bnAddQ`), `dest += src`. -/
def bnAdd (dest src : Nat) : Nat := dest + src

/-- Modelled from the spec: the engine's "subtract" (`bnSub`, `bnSubQ`),
`dest -= src`.  A bignum is never negative: for `dest < src` the engine stores
the magnitude of the difference.  The callers in this file only subtract a
smaller value once their operands are reduced. -/
def bnSub (dest src : Nat) : Nat := if src ≤ dest then dest - src else src - dest

/-- Modelled from the spec: the engine's "multiply" (`bnMul`, `bnMulQ`). -/
def bnMul (a b : Nat) : Nat := a * b

/-- Modelled from the spec: the engine's "square" (`bnSquare`). -/
def bnSquare (a : Nat) : Nat := a * a

/-- Modelled from the spec: the engine's "full modular reduction" (`bnMod`). -/
def bnMod (src d : Nat) : Nat := src % d

/-- Modelled from the spec: the engine's "right bit-shift" (`bnRShift`). -/
def bnRShift (a amt : Nat) : Nat := a / 2 ^ amt

/-- Modelled from the spec: the engine's "extraction of the least-significant
machine word" (`bnLSWord`), a 32-bit `unsigned`. -/
def bnLSWord (a : Nat) : Nat := a % 2 ^ 32

/-- Counts the bits of `a` by halving it until it is zero; `fuel` bounds the
number of halvings and `a` itself is always enough. -/
def bnBitsLoop : Nat → Nat → Nat
  | 0, _ => 0
  | fuel + 1, a => if a = 0 then 0 else bnBitsLoop fuel (a / 2) + 1

/-- Modelled from the spec: the number of significant bits of a bignum
(`bnBits`); zero has none. -/
def bnBits (a : Nat) : Nat := bnBitsLoop a a

/-- Modelled from the spec: the engine's "byte-length query" (`bnBytes`). -/
def bnBytes (a : Nat) : Nat := (bnBits a + 7) / 8

/-- Modelled from the spec: the engine's "big-endian byte insertion"
(`bnInsertBigBytes` at offset 0): the bytes read as one big-endian integer. -/
def bnInsertBigBytes (bytes : List Nat) : Nat :=
  bytes.foldl (fun acc b => acc * 256 + b % 256) 0

/-- Euclid's algorithm on the remainders `r0`, `r1`, carrying for each the
coefficient `t` with `t * a ≡ r (mod m)`, kept reduced modulo `m`.  When the
remainders end in a greatest common divisor other than 1 there is no inverse. -/
def bnInvLoop (m : Nat) : Nat → Nat → Nat → Nat → Nat → Nat
  | 0, _, _, _, _ => 0
  | fuel + 1, r0, r1, t0, t1 =>
    if r1 = 0 then (if r0 = 1 then t0 else 0)
    else bnInvLoop m fuel r1 (r0 % r1) t1 ((t0 + (m - (r0 / r1 * t1) % m)) % m)

/-- Modelled from the spec: the engine's "modular inverse" (`bnInv`), the
value `x` in `[0, m)` with `src * x ≡ 1 (mod m)`.  When `src` has no inverse
the engine reports it through its return value, which `zrtp_ecAdd` does not
look at; the model then yields 0, the value a zero operand is left with. -/
def bnInv (src m : Nat) : Nat := bnInvLoop m (m + 1) m (src % m) 0 1

/-! ## Bignum shorthand functions -/

/-- Embeds `bnAddMod_`: add, then subtract the modulus once if the sum reached it. -/
def bnAddMod_ (rslt n1 mod : Nat) : Nat :=
  let rslt := bnAdd rslt n1
  if mod ≤ rslt then bnSub rslt mod else rslt

/-- Embeds `bnAddQMod_`: `bnAddMod_` with a small operand. -/
def bnAddQMod_ (rslt n1 mod : Nat) : Nat :=
  let rslt := bnAdd rslt n1
  if mod ≤ rslt then bnSub rslt mod else rslt

/-- Embeds `bnSubMod_`: add the modulus first if the subtrahend is larger, then subtract. -/
def bnSubMod_ (rslt n1 mod : Nat) : Nat :=
  let rslt := if rslt < n1 then bnAdd rslt mod else rslt
  bnSub rslt n1

/-- Embeds `bnSubQMod_`: `bnSubMod_` with a small operand. -/
def bnSubQMod_ (rslt n1 mod : Nat) : Nat :=
  let rslt := if rslt < n1 then bnAdd rslt mod else rslt
  bnSub rslt n1

/-- Embeds `bnMulMod_`: multiply, then reduce. -/
def bnMulMod_ (n1 n2 mod : Nat) : Nat := bnMod (bnMul n1 n2) mod

/-- Embeds `bnMulQMod_`: multiply by a small operand, then reduce. -/
def bnMulQMod_ (n1 n2 mod : Nat) : Nat := bnMod (bnMul n1 n2) mod

/-- Embeds `bnSquareMod_`: square, then reduce. -/
def bnSquareMod_ (n1 mod : Nat) : Nat := bnMod (bnSquare n1) mod

/-! ## Elliptic-curve arithmetic -/

/-- A curve point in affine coordinates `(x, y)`; `(0, 0)` stands for the
point at infinity. -/
abbrev Point := Nat × Nat

/-- The slope `gam` computed by `zrtp_ecAdd`: the tangent formula when both
coordinates agree, the chord formula otherwise. -/
def ecGamma (p1 p2 : Point) (mod : Nat) : Nat :=
  if p1.1 = p2.1 ∧ p1.2 = p2.2 then
    let t1 := bnAddMod_ p1.2 p1.2 mod
    let t1 := bnInv t1 mod
    let gam := bnSquareMod_ p1.1 mod
    let gam := bnMulQMod_ gam 3 mod
    let gam := bnSubQMod_ gam 3 mod
    bnMulMod_ gam t1 mod
  else
    let t1 := bnSubMod_ p2.1 p1.1 mod
    let t1 := bnInv t1 mod
    let gam := bnSubMod_ p2.2 p1.2 mod
    bnMulMod_ gam t1 mod

/-- The common tail of `zrtp_ecAdd`, from the slope to the result point. -/
def ecTail (gam : Nat) (p1 p2 : Point) (mod : Nat) : Point :=
  let trsltx := bnSquareMod_ gam mod
  let trsltx := bnSubMod_ trsltx p1.1 mod
  let trsltx := bnSubMod_ trsltx p2.1 mod
  let trslty := bnSubMod_ p1.1 trsltx mod
  let trslty := bnMulMod_ trslty gam mod
  let trslty := bnSubMod_ trslty p1.2 mod
  (trsltx, trslty)

/-- Embeds `zrtp_ecAdd`: the sum of `p1` and `p2` modulo `mod`, with the
source's order of cases: a zero first operand, a zero second operand, the test
commented "p1 == -p2", then doubling or general addition. -/
def zrtp_ecAdd (p1 p2 : Point) (mod : Nat) : Point :=
  if p1.1 = 0 ∧ p1.2 = 0 then p2
  else if p2.1 = 0 ∧ p2.2 = 0 then p1
  else if p1.1 = p2.1 ∧ bnAddMod_ p1.1 p2.1 mod = 0 then (0, 0)
  else ecTail (ecGamma p1 p2 mod) p1 p2 mod

/-- The `while` loop of `zrtp_ecMul` on the state `(tmult, tbase, trslt)`.
Every pass halves `tmult`, so `fuel` passes are enough whenever
`tmult < 2 ^ fuel`. -/
def ecMulLoop (mod : Nat) : Nat → Nat → Point → Point → Point
  | 0, _, _, trslt => trslt
  | fuel + 1, tmult, tbase, trslt =>
    if 0 < tmult then
      let lsw := bnLSWord tmult
      let trslt := if lsw % 2 = 1 then zrtp_ecAdd trslt tbase mod else trslt
      let tbase := zrtp_ecAdd tbase tbase mod
      ecMulLoop mod fuel (bnRShift tmult 1) tbase trslt
    else trslt

/-- Embeds `zrtp_ecMul`: double-and-add from the least significant bit of
`mult`, starting from the result `(0, 0)`. -/
def zrtp_ecMul (mult : Nat) (base : Point) (mod : Nat) : Point :=
  ecMulLoop mod mult mult base (0, 0)

/-! ## Curve parameters -/

/-- The table `P_256_data`: field prime of the 256-bit curve, big-endian. -/
def P_256_data : List Nat :=
  [0xFF, 0xFF, 0xFF, 0xFF, 0x00, 0x00, 0x00, 0x01,
   0x00, 0x00, 0x00, 0x00, 0x00, 0x00, 0x00, 0x00,
   0x00, 0x00, 0x00, 0x00, 0xFF, 0xFF, 0xFF, 0xFF,
   0xFF, 0xFF, 0xFF, 0xFF, 0xFF, 0xFF, 0xFF, 0xFF]

/-- The table `n_256_data`: curve order of the 256-bit curve, big-endian. -/
def n_256_data : List Nat :=
  [0xFF, 0xFF, 0xFF, 0xFF, 0x00, 0x00, 0x00, 0x00,
   0xFF, 0xFF, 0xFF, 0xFF, 0xFF, 0xFF, 0xFF, 0xFF,
   0xBC, 0xE6, 0xFA, 0xAD, 0xA7, 0x17, 0x9E, 0x84,
   0xF3, 0xB9, 0xCA, 0xC2, 0xFC, 0x63, 0x25, 0x51]

/-- The table `b_256_data`: curve coefficient b of the 256-bit curve, big-endian. -/
def b_256_data : List Nat :=
  [0x5a, 0xc6, 0x35, 0xd8, 0xaa, 0x3a, 0x93, 0xe7,
   0xb3, 0xeb, 0xbd, 0x55, 0x76, 0x98, 0x86, 0xbc,
   0x65, 0x1d, 0x06, 0xb0, 0xcc, 0x53, 0xb0, 0xf6,
   0x3b, 0xce, 0x3c, 0x3e, 0x27, 0xd2, 0x60, 0x4b]

/-- The table `Gx_256_data`: base point, x coordinate of the 256-bit curve, big-endian. -/
def Gx_256_data : List Nat :=
  [0x6b, 0x17, 0xd1, 0xf2, 0xe1, 0x2c, 0x42, 0x47,
   0xf8, 0xbc, 0xe6, 0xe5, 0x63, 0xa4, 0x40, 0xf2,
   0x77, 0x03, 0x7d, 0x81, 0x2d, 0xeb, 0x33, 0xa0,
   0xf4, 0xa1, 0x39, 0x45, 0xd8, 0x98, 0xc2, 0x96]

/-- The table `Gy_256_data`: base point, y coordinate of the 256-bit curve, big-endian. -/
def Gy_256_data : List Nat :=
  [0x4f, 0xe3, 0x42, 0xe2, 0xfe, 0x1a, 0x7f, 0x9b,
   0x8e, 0xe7, 0xeb, 0x4a, 0x7c, 0x0f, 0x9e, 0x16,
   0x2b, 0xce, 0x33, 0x57, 0x6b, 0x31, 0x5e, 0xce,
   0xcb, 0xb6, 0x40, 0x68, 0x37, 0xbf, 0x51, 0xf5]

/-- The table `P_384_data`: field prime of the 384-bit curve, big-endian. -/
def P_384_data : List Nat :=
  [0xFF, 0xFF, 0xFF, 0xFF, 0xFF, 0xFF, 0xFF, 0xFF,
   0xFF, 0xFF, 0xFF, 0xFF, 0xFF, 0xFF, 0xFF, 0xFF,
   0xFF, 0xFF, 0xFF, 0xFF, 0xFF, 0xFF, 0xFF, 0xFF,
   0xFF, 0xFF, 0xFF, 0xFF, 0xFF, 0xFF, 0xFF, 0xFE,
   0xFF, 0xFF, 0xFF, 0xFF, 0x00, 0x00, 0x00, 0x00,
   0x00, 0x00, 0x00, 0x00, 0xFF, 0xFF, 0xFF, 0xFF]

/-- The table `n_384_data`: curve order of the 384-bit curve, big-endian. -/
def n_384_data : List Nat :=
  [0xFF, 0xFF, 0xFF, 0xFF, 0xFF, 0xFF, 0xFF, 0xFF,
   0xFF, 0xFF, 0xFF, 0xFF, 0xFF, 0xFF, 0xFF, 0xFF,
   0xFF, 0xFF, 0xFF, 0xFF, 0xFF, 0xFF, 0xFF, 0xFF,
   0xC7, 0x63, 0x4D, 0x81, 0xF4, 0x37, 0x2D, 0xDF,
   0x58, 0x1A, 0x0D, 0xB2, 0x48, 0xB0, 0xA7, 0x7A,
   0xEC, 0xEC, 0x19, 0x6A, 0xCC, 0xC5, 0x29, 0x73]

/-- The table `b_384_data`: curve coefficient b of the 384-bit curve, big-endian. -/
def b_384_data : List Nat :=
  [0xb3, 0x31, 0x2f, 0xa7, 0xe2, 0x3e, 0xe7, 0xe4,
   0x98, 0x8e, 0x05, 0x6b, 0xe3, 0xf8, 0x2d, 0x19,
   0x18, 0x1d, 0x9c, 0x6e, 0xfe, 0x81, 0x41, 0x12,
   0x03, 0x14, 0x08, 0x8f, 0x50, 0x13, 0x87, 0x5a,
   0xc6, 0x56, 0x39, 0x8d, 0x8a, 0x2e, 0xd1, 0x9d,
   0x2a, 0x85, 0xc8, 0xed, 0xd3, 0xec, 0x2a, 0xef]

/-- The table `Gx_384_data`: base point, x coordinate of the 384-bit curve, big-endian. -/
def Gx_384_data : List Nat :=
  [0xaa, 0x87, 0xca, 0x22, 0xbe, 0x8b, 0x05, 0x37,
   0x8e, 0xb1, 0xc7, 0x1e, 0xf3, 0x20, 0xad, 0x74,
   0x6e, 0x1d, 0x3b, 0x62, 0x8b, 0xa7, 0x9b, 0x98,
   0x59, 0xf7, 0x41, 0xe0, 0x82, 0x54, 0x2a, 0x38,
   0x55, 0x02, 0xf2, 0x5d, 0xbf, 0x55, 0x29, 0x6c,
   0x3a, 0x54, 0x5e, 0x38, 0x72, 0x76, 0x0a, 0xb7]

/-- The table `Gy_384_data`: base point, y coordinate of the 384-bit curve, big-endian. -/
def Gy_384_data : List Nat :=
  [0x36, 0x17, 0xde, 0x4a, 0x96, 0x26, 0x2c, 0x6f,
   0x5d, 0x9e, 0x98, 0xbf, 0x92, 0x92, 0xdc, 0x29,
   0xf8, 0xf4, 0x1d, 0xbd, 0x28, 0x9a, 0x14, 0x7c,
   0xe9, 0xda, 0x31, 0x13, 0xb5, 0xf0, 0xb8, 0xc0,
   0x0a, 0x60, 0xb1, 0xce, 0x1d, 0x7e, 0x81, 0x9d,
   0x7a, 0x43, 0x1d, 0x7c, 0x90, 0xea, 0x0e, 0x5f]

/-- The table `P_521_data`: field prime of the 521-bit curve, big-endian. -/
def P_521_data : List Nat :=
  [0x01, 0xFF, 0xFF, 0xFF, 0xFF, 0xFF, 0xFF, 0xFF,
   0xFF, 0xFF, 0xFF, 0xFF, 0xFF, 0xFF, 0xFF, 0xFF,
   0xFF, 0xFF, 0xFF, 0xFF, 0xFF, 0xFF, 0xFF, 0xFF,
   0xFF, 0xFF, 0xFF, 0xFF, 0xFF, 0xFF, 0xFF, 0xFF,
   0xFF, 0xFF, 0xFF, 0xFF, 0xFF, 0xFF, 0xFF, 0xFF,
   0xFF, 0xFF, 0xFF, 0xFF, 0xFF, 0xFF, 0xFF, 0xFF,
   0xFF, 0xFF, 0xFF, 0xFF, 0xFF, 0xFF, 0xFF, 0xFF,
   0xFF, 0xFF, 0xFF, 0xFF, 0xFF, 0xFF, 0xFF, 0xFF,
   0xFF, 0xFF]

/-- The table `n_521_data`: curve order of the 521-bit curve, big-endian. -/
def n_521_data : List Nat :=
  [0x01, 0xFF, 0xFF, 0xFF, 0xFF, 0xFF, 0xFF, 0xFF,
   0xFF, 0xFF, 0xFF, 0xFF, 0xFF, 0xFF, 0xFF, 0xFF,
   0xFF, 0xFF, 0xFF, 0xFF, 0xFF, 0xFF, 0xFF, 0xFF,
   0xFF, 0xFF, 0xFF, 0xFF, 0xFF, 0xFF, 0xFF, 0xFF,
   0xFF, 0xFA, 0x51, 0x86, 0x87, 0x83, 0xBF, 0x2F,
   0x96, 0x6B, 0x7F, 0xCC, 0x01, 0x48, 0xF7, 0x09,
   0xA5, 0xD0, 0x3B, 0xB5, 0xC9, 0xB8, 0x89, 0x9C,
   0x47, 0xAE, 0xBB, 0x6F, 0xB7, 0x1E, 0x91, 0x38,
   0x64, 0x09]

/-- The table `b_521_data`: curve coefficient b of the 521-bit curve, big-endian. -/
def b_521_data : List Nat :=
  [0x00, 0x51, 0x95, 0x3e, 0xb9, 0x61, 0x8e, 0x1c,
   0x9a, 0x1f, 0x92, 0x9a, 0x21, 0xa0, 0xb6, 0x85,
   0x40, 0xee, 0xa2, 0xda, 0x72, 0x5b, 0x99, 0xb3,
   0x15, 0xf3, 0xb8, 0xb4, 0x89, 0x91, 0x8e, 0xf1,
   0x09, 0xe1, 0x56, 0x19, 0x39, 0x51, 0xec, 0x7e,
   0x93, 0x7b, 0x16, 0x52, 0xc0, 0xbd, 0x3b, 0xb1,
   0xbf, 0x07, 0x35, 0x73, 0xdf, 0x88, 0x3d, 0x2c,
   0x34, 0xf1, 0xef, 0x45, 0x1f, 0xd4, 0x6b, 0x50,
   0x3f, 0x00]

/-- The table `Gx_521_data`: base point, x coordinate of the 521-bit curve, big-endian. -/
def Gx_521_data : List Nat :=
  [0x00, 0xc6, 0x85, 0x8e, 0x06, 0xb7, 0x04, 0x04,
   0xe9, 0xcd, 0x9e, 0x3e, 0xcb, 0x66, 0x23, 0x95,
   0xb4, 0x42, 0x9c, 0x64, 0x81, 0x39, 0x05, 0x3f,
   0xb5, 0x21, 0xf8, 0x28, 0xaf, 0x60, 0x6b, 0x4d,
   0x3d, 0xba, 0xa1, 0x4b, 0x5e, 0x77, 0xef, 0xe7,
   0x59, 0x28, 0xfe, 0x1d, 0xc1, 0x27, 0xa2, 0xff,
   0xa8, 0xde, 0x33, 0x48, 0xb3, 0xc1, 0x85, 0x6a,
   0x42, 0x9b, 0xf9, 0x7e, 0x7e, 0x31, 0xc2, 0xe5,
   0xbd, 0x66]

/-- The table `Gy_521_data`: base point, y coordinate of the 521-bit curve, big-endian. -/
def Gy_521_data : List Nat :=
  [0x01, 0x18, 0x39, 0x29, 0x6a, 0x78, 0x9a, 0x3b,
   0xc0, 0x04, 0x5c, 0x8a, 0x5f, 0xb4, 0x2c, 0x7d,
   0x1b, 0xd9, 0x98, 0xf5, 0x44, 0x49, 0x57, 0x9b,
   0x44, 0x68, 0x17, 0xaf, 0xbd, 0x17, 0x27, 0x3e,
   0x66, 0x2c, 0x97, 0xee, 0x72, 0x99, 0x5e, 0xf4,
   0x26, 0x40, 0xc5, 0x50, 0xb9, 0x01, 0x3f, 0xad,
   0x07, 0x61, 0x35, 0x3c, 0x70, 0x86, 0xa2, 0x72,
   0xc2, 0x40, 0x88, 0xbe, 0x94, 0x76, 0x9f, 0xd1,
   0x66, 0x50]

/-- The status codes of `zrtp_status_t` that this file returns. -/
inductive zrtp_status_t where
  | zrtp_status_ok
  | zrtp_status_fail
  | zrtp_status_bad_param
  | zrtp_status_alloc_fail
  deriving DecidableEq, Repr

open zrtp_status_t

/-- The record `struct zrtp_ec_params`: the bit size and the five byte arrays
filled by `zrtp_ec_init_params`. -/
structure zrtp_ec_params where
  ec_bits : Nat
  P_data : List Nat
  n_data : List Nat
  b_data : List Nat
  Gx_data : List Nat
  Gy_data : List Nat
  deriving DecidableEq, Repr

/-- The effect of `zrtp_memcpy (dst, src, n)` on the array `dst`: its first
`n` bytes become the first `n` bytes of `src`. -/
def zrtp_memcpy (dst src : List Nat) (n : Nat) : List Nat :=
  src.take n ++ dst.drop n

/-- Embeds `zrtp_ec_init_params`: the status returned and the record as the
call leaves it.  `bits` is a `uint32_t`, so `bits + 7` wraps at `2 ^ 32`; the
field `ec_bits` is written before the `switch`. -/
def zrtp_ec_init_params (params : zrtp_ec_params) (bits : Nat) :
    zrtp_status_t × zrtp_ec_params :=
  let ec_bytes := (bits + 7) % 2 ^ 32 / 8
  let params := { params with ec_bits := bits }
  if bits = 256 then
    (zrtp_status_ok,
      { params with
        P_data := zrtp_memcpy params.P_data P_256_data ec_bytes
        n_data := zrtp_memcpy params.n_data n_256_data ec_bytes
        b_data := zrtp_memcpy params.b_data b_256_data ec_bytes
        Gx_data := zrtp_memcpy params.Gx_data Gx_256_data ec_bytes
        Gy_data := zrtp_memcpy params.Gy_data Gy_256_data ec_bytes })
  else if bits = 384 then
    (zrtp_status_ok,
      { params with
        P_data := zrtp_memcpy params.P_data P_384_data ec_bytes
        n_data := zrtp_memcpy params.n_data n_384_data ec_bytes
        b_data := zrtp_memcpy params.b_data b_384_data ec_bytes
        Gx_data := zrtp_memcpy params.Gx_data Gx_384_data ec_bytes
        Gy_data := zrtp_memcpy params.Gy_data Gy_384_data ec_bytes })
  else if bits = 521 then
    (zrtp_status_ok,
      { params with
        P_data := zrtp_memcpy params.P_data P_521_data ec_bytes
        n_data := zrtp_memcpy params.n_data n_521_data ec_bytes
        b_data := zrtp_memcpy params.b_data b_521_data ec_bytes
        Gx_data := zrtp_memcpy params.Gx_data Gx_521_data ec_bytes
        Gy_data := zrtp_memcpy params.Gy_data Gy_521_data ec_bytes })
  else (zrtp_status_bad_param, params)

/-! ## Key generation -/

/-- The constant `UNIFORMBYTES`: extra random bytes drawn before reducing modulo the order. -/
def UNIFORMBYTES : Nat := 8

/-- Size in bytes of the scratch array type `zrtp_uchar1024_t`, which is
declared outside this file. -/
def sizeof_zrtp_uchar1024_t : Nat := 1024

/-- The three output bignums of `zrtp_ec_random_point`: the public point
`(pkx, pky)` and the secret scalar `sv`. -/
structure KeyPair where
  pkx : Nat
  pky : Nat
  sv : Nat
  deriving DecidableEq, Repr

/-- The steps of `zrtp_ec_random_point` after the buffer is filled: read
`bnBytes(P) + UNIFORMBYTES` bytes big-endian into `sv`, reduce modulo `n`,
multiply the base point. -/
def ecKeyFromBuffer (buffer : List Nat) (P n : Nat) (G : Point) : KeyPair :=
  let sv := bnInsertBigBytes (buffer.take (bnBytes P + UNIFORMBYTES))
  let sv := bnMod sv n
  let pk := zrtp_ecMul sv G P
  { pkx := pk.1, pky := pk.2, sv := sv }

/-- Embeds `zrtp_ec_random_point`.

* `alloc_ok` tells whether `zrtp_sys_alloc` returned a buffer;
* `zrtp_randstr len` is what the random source does when asked for `len`
  bytes: the value it returns and the bytes it writes at the start of the
  buffer;
* `test_sv_data` holds the `test_sv_data_len` bytes of the forced secret, the
  empty list standing for `test_sv_data_len == 0`;
* `out` holds the output bignums as they are before the call.

The result is the status together with the output bignums after the call.  It
is `none` when the call would write past the end of the scratch buffer, where
the C code has no defined behaviour. -/
def zrtp_ec_random_point (alloc_ok : Bool) (zrtp_randstr : Nat → Int × List Nat)
    (P n : Nat) (G : Point) (out : KeyPair) (test_sv_data : List Nat) :
    Option (zrtp_status_t × KeyPair) :=
  if alloc_ok = false then some (zrtp_status_alloc_fail, out)
  else
    let buffer := List.replicate sizeof_zrtp_uchar1024_t 0
    let test_sv_data_len := test_sv_data.length
    if test_sv_data_len ≠ 0 then
      if bnBytes P ≠ test_sv_data_len then some (zrtp_status_fail, out)
      else if sizeof_zrtp_uchar1024_t < UNIFORMBYTES + test_sv_data_len then none
      else
        let buffer := buffer.take UNIFORMBYTES
          ++ zrtp_memcpy (buffer.drop UNIFORMBYTES) test_sv_data test_sv_data_len
        some (zrtp_status_ok, ecKeyFromBuffer buffer P n G)
    else
      let len := bnBytes P + UNIFORMBYTES
      if sizeof_zrtp_uchar1024_t < len then none
      else
        let r := zrtp_randstr len
        if len % 2 ^ 32 ≠ (r.1 % 2 ^ 32).toNat then some (zrtp_status_fail, out)
        else
          let buffer := zrtp_memcpy buffer (r.2.take len) (min r.2.length len)
          some (zrtp_status_ok, ecKeyFromBuffer buffer P n G)

/-- The field prime, the order and the base point of the 256-bit curve,
decoded big-endian from the tables. -/
def P_256 : Nat := bnInsertBigBytes P_256_data

/-- Order of the 256-bit curve. -/
def n_256 : Nat := bnInsertBigBytes n_256_data

/-- Base point of the 256-bit curve. -/
def G_256 : Point := (bnInsertBigBytes Gx_256_data, bnInsertBigBytes Gy_256_data)

/-- Field prime of the 384-bit curve. -/
def P_384 : Nat := bnInsertBigBytes P_384_data

/-- Order of the 384-bit curve. -/
def n_384 : Nat := bnInsertBigBytes n_384_data

/-- Base point of the 384-bit curve. -/
def G_384 : Point := (bnInsertBigBytes Gx_384_data, bnInsertBigBytes Gy_384_data)

/-- Field prime of the 521-bit curve. -/
def P_521 : Nat := bnInsertBigBytes P_521_data

/-- Order of the 521-bit curve. -/
def n_521 : Nat := bnInsertBigBytes n_521_data

/-- Base point of the 521-bit curve. -/
def G_521 : Point := (bnInsertBigBytes Gx_521_data, bnInsertBigBytes Gy_521_data)

/-! ## Records, curve equation and buffers used by the statements -/

/-- A record holding the tables of the 256-bit curve. -/
def params_256 : zrtp_ec_params :=
  { ec_bits := 256, P_data := P_256_data, n_data := n_256_data, b_data := b_256_data,
    Gx_data := Gx_256_data, Gy_data := Gy_256_data }

/-- The curve equation `y² = x³ - 3x + b` modulo `p`, written without
subtraction: `y² + 3x` and `x³ + b` leave the same remainder. -/
def ecOnCurve (x y b p : Nat) : Prop := (y ^ 2 + 3 * x) % p = (x ^ 3 + b) % p

instance (x y b p : Nat) : Decidable (ecOnCurve x y b p) := by
  unfold ecOnCurve; infer_instance

/-- All buffers of `k` bytes: every list of `k` values below 256, the last
byte running fastest. -/
def allBuffers : Nat → List (List Nat)
  | 0 => [[]]
  | k + 1 => (allBuffers k).flatMap (fun bs => (List.range 256).map (fun b => bs ++ [b]))

/-- The number of `k`-byte buffers from which `zrtp_ec_random_point` derives
the secret scalar `r`, for the modulus `P`, the order `n` and the base `G`. -/
def svPreimages (P n : Nat) (G : Point) (k r : Nat) : Nat :=
  (allBuffers k).countP (fun buffer => (ecKeyFromBuffer buffer P n G).sv = r)

/-! ## The bignum engine model: bit length and inverse -/

/-- The bit count brackets its argument: `a < 2 ^ bits`, and `2 ^ (bits - 1) ≤ a`
for `a ≠ 0`, whenever the fuel is at least `a`. -/
theorem bnBitsLoop_spec : ∀ (fuel a : Nat), a ≤ fuel →
    a < 2 ^ bnBitsLoop fuel a ∧ (a ≠ 0 → 2 ^ (bnBitsLoop fuel a - 1) ≤ a) := by
  intro fuel
  induction fuel with
  | zero =>
    intro a h
    have h0 : a = 0 := by omega
    subst h0
    simp [bnBitsLoop]
  | succ f ih =>
    intro a h
    by_cases ha : a = 0
    · subst ha; simp [bnBitsLoop]
    · have hle : a / 2 ≤ f := by omega
      obtain ⟨h1, h2⟩ := ih (a / 2) hle
      simp only [bnBitsLoop, if_neg ha, Nat.add_sub_cancel]
      refine ⟨by rw [pow_succ]; omega, fun _ => ?_⟩
      by_cases hz : a / 2 = 0
      · have hk : bnBitsLoop f (a / 2) = 0 := by
          rw [hz]; cases f <;> simp [bnBitsLoop]
        rw [hk]; simp; omega
      · have h3 := h2 hz
        have hk : 1 ≤ bnBitsLoop f (a / 2) := by
          by_contra hc
          have hk0 : bnBitsLoop f (a / 2) = 0 := by omega
          rw [hk0] at h1
          simp at h1
          exact hz h1
        have hp : 2 ^ bnBitsLoop f (a / 2) = 2 ^ (bnBitsLoop f (a / 2) - 1) * 2 := by
          rw [← pow_succ]; congr 1; omega
        rw [hp]; omega

/-- The bit length of `a` is the least `k` with `a < 2 ^ k`. -/
theorem bnBits_spec (a : Nat) :
    a < 2 ^ bnBits a ∧ (a ≠ 0 → 2 ^ (bnBits a - 1) ≤ a) :=
  bnBitsLoop_spec a a (Nat.le_refl a)

/-- Euclid's loop keeps its coefficients tied to its remainders and ends, for
coprime remainders, in a coefficient that inverts `a` modulo `m`. -/
theorem bnInvLoop_spec (m a : Nat) (hm : 0 < m) :
    ∀ (fuel r0 r1 t0 t1 : Nat), r1 < fuel → Nat.gcd r0 r1 = 1 →
      (t0 : ZMod m) * a = r0 → (t1 : ZMod m) * a = r1 →
      (bnInvLoop m fuel r0 r1 t0 t1 : ZMod m) * a = 1 := by
  intro fuel
  induction fuel with
  | zero => intro r0 r1 t0 t1 h; omega
  | succ f ih =>
    intro r0 r1 t0 t1 hf hg h0 h1
    by_cases hr : r1 = 0
    · subst hr
      have hr0 : r0 = 1 := by simpa using hg
      simp only [bnInvLoop, if_true, hr0]
      rw [h0, hr0]; simp
    · simp only [bnInvLoop, if_neg hr]
      apply ih
      · have := Nat.mod_lt r0 (Nat.pos_of_ne_zero hr); omega
      · rw [Nat.gcd_comm, ← Nat.gcd_rec, Nat.gcd_comm]; exact hg
      · exact h1
      · have hle : (r0 / r1 * t1) % m ≤ m := (Nat.mod_lt _ hm).le
        have hdm : ((r0 % r1 : Nat) : ZMod m)
            = (r0 : ZMod m) - (r0 / r1 : Nat) * (r1 : ZMod m) := by
          have hc : ((r1 * (r0 / r1) + r0 % r1 : Nat) : ZMod m) = (r0 : ZMod m) := by
            rw [Nat.div_add_mod r0 r1]
          push_cast at hc
          rw [← hc]; ring
        rw [ZMod.natCast_mod, Nat.cast_add, Nat.cast_sub hle, ZMod.natCast_self,
          ZMod.natCast_mod, hdm, ← h0, ← h1]
        push_cast
        ring

/-- The modelled `bnInv` is a modular inverse: for `src` coprime to `m`,
`src * bnInv src m` is 1 modulo `m`. -/
theorem bnInv_spec (src m : Nat) (hm : 0 < m) (h : Nat.Coprime src m) :
    (src * bnInv src m) % m = 1 % m := by
  have key : (bnInv src m : ZMod m) * src = 1 := by
    apply bnInvLoop_spec m src hm (m + 1) m (src % m) 0 1
    · have := Nat.mod_lt src hm; omega
    · rw [Nat.gcd_comm, ← Nat.gcd_rec, Nat.gcd_comm]; exact h
    · simp
    · simp [ZMod.natCast_mod]
  have h2 : ((src * bnInv src m : Nat) : ZMod m) = ((1 : Nat) : ZMod m) := by
    push_cast; rw [mul_comm]; exact key
  exact (ZMod.natCast_eq_natCast_iff' _ _ _).1 h2

/-- The loop returns a reduced value when its coefficients are reduced. -/
theorem bnInvLoop_lt (m : Nat) (hm : 0 < m) :
    ∀ (fuel r0 r1 t0 t1 : Nat), t0 < m → t1 < m → bnInvLoop m fuel r0 r1 t0 t1 < m := by
  intro fuel
  induction fuel with
  | zero => intro r0 r1 t0 t1 _ _; simpa [bnInvLoop] using hm
  | succ f ih =>
    intro r0 r1 t0 t1 h0 h1
    by_cases hr : r1 = 0
    · simp only [bnInvLoop, hr, if_true]
      split
      · exact h0
      · exact hm
    · simp only [bnInvLoop, if_neg hr]
      exact ih _ _ _ _ h1 (Nat.mod_lt _ hm)

/-- The modelled `bnInv` returns a value below the modulus. -/
theorem bnInv_lt (src m : Nat) (hm : 0 < m) : bnInv src m < m := by
  by_cases h1 : m = 1
  · subst h1; simp [bnInv, bnInvLoop, Nat.mod_one]
  · exact bnInvLoop_lt m hm _ _ _ _ _ hm (by omega)

/-- The modelled `bnInv` leaves 0 for a zero operand, which has no inverse. -/
theorem bnInv_zero (m : Nat) (hm : 1 < m) : bnInv 0 m = 0 := by
  have h : m ≠ 1 := by omega
  simp [bnInv, bnInvLoop, h]

/-! ## Termination of the double-and-add loop -/

/-- Once the multiplier is zero the loop returns its accumulator, whatever fuel is left. -/
theorem ecMulLoop_zero (mod fuel : Nat) (tbase trslt : Point) :
    ecMulLoop mod fuel 0 tbase trslt = trslt := by
  cases fuel <;> simp [ecMulLoop]

/-- The loop leaves through its `while` test and never by running out of
fuel: with `tmult < 2 ^ fuel`, any extra fuel changes nothing. -/
theorem ecMulLoop_fuel (mod : Nat) :
    ∀ (fuel k tmult : Nat) (tbase trslt : Point), tmult < 2 ^ fuel →
      ecMulLoop mod (fuel + k) tmult tbase trslt = ecMulLoop mod fuel tmult tbase trslt := by
  intro fuel
  induction fuel with
  | zero =>
    intro k tmult tbase trslt h
    have h0 : tmult = 0 := by simpa using h
    subst h0
    rw [ecMulLoop_zero, ecMulLoop_zero]
  | succ f ih =>
    intro k tmult tbase trslt h
    have hk : f + 1 + k = (f + k) + 1 := by omega
    rw [hk]
    simp only [ecMulLoop]
    split
    · apply ih
      simp only [bnRShift, pow_one]
      rw [pow_succ] at h
      omega
    · rfl

/-- The fuel `zrtp_ecMul` gives its loop, the multiplier itself, is always enough. -/
theorem zrtp_ecMul_fuel (mult k : Nat) (base : Point) (mod : Nat) :
    ecMulLoop mod (mult + k) mult base (0, 0) = zrtp_ecMul mult base mod :=
  ecMulLoop_fuel mod mult k mult base (0, 0) (Nat.lt_two_pow mult)

/-! ## Point addition: identity operand -/

/-- A zero first operand makes `zrtp_ecAdd` return its second operand. -/
theorem zrtp_ecAdd_zero_left (P : Point) (mod : Nat) : zrtp_ecAdd (0, 0) P mod = P := by
  simp [zrtp_ecAdd]

/-- C4. Identity law: adding the point `(0, 0)` on either side returns the
other operand exactly as it was given, for every point (reduced or not, on a
curve or not) and every modulus. -/
theorem zrtp_ecAdd_identity (P : Point) (mod : Nat) :
    zrtp_ecAdd (0, 0) P mod = P ∧ zrtp_ecAdd P (0, 0) mod = P := by
  refine ⟨zrtp_ecAdd_zero_left P mod, ?_⟩
  by_cases h : P.1 = 0 ∧ P.2 = 0
  · obtain ⟨x, y⟩ := P
    simp only at h
    simp [zrtp_ecAdd, h.1, h.2]
  · simp [zrtp_ecAdd, h]

/-! ## Scalar multiplication by one and by two -/

/-- C7. Multiplication by one: `zrtp_ecMul` with the scalar 1 returns the
base point itself, for every point and every modulus. -/
theorem zrtp_ecMul_one (P : Point) (mod : Nat) : zrtp_ecMul 1 P mod = P := by
  simp [zrtp_ecMul, ecMulLoop, bnLSWord, zrtp_ecAdd]

/-- C5. Doubling consistency: `zrtp_ecMul` with the scalar 2 returns exactly
what `zrtp_ecAdd` returns for the point added to itself, for every point and
every modulus. -/
theorem zrtp_ecMul_two (P : Point) (mod : Nat) :
    zrtp_ecMul 2 P mod = zrtp_ecAdd P P mod := by
  have h := zrtp_ecAdd_zero_left (zrtp_ecAdd P P mod) mod
  simp only [zrtp_ecMul, ecMulLoop, bnLSWord, bnRShift]
  norm_num
  exact h

/-! ## Curve selection -/

/-- C10. Curve selection: `zrtp_ec_init_params` returns `zrtp_status_ok`
exactly for the bit sizes 256, 384 and 521, and `zrtp_status_bad_param` for
every other value of `bits`. -/
theorem zrtp_ec_init_params_status (params : zrtp_ec_params) (bits : Nat) :
    ((zrtp_ec_init_params params bits).1 = zrtp_status_ok ↔
        (bits = 256 ∨ bits = 384 ∨ bits = 521)) ∧
      (zrtp_ec_init_params params bits).1 =
        (if bits = 256 ∨ bits = 384 ∨ bits = 521 then zrtp_status_ok
         else zrtp_status_bad_param) := by
  by_cases h1 : bits = 256
  · subst h1; simp [zrtp_ec_init_params]
  by_cases h2 : bits = 384
  · subst h2; simp [zrtp_ec_init_params]
  by_cases h3 : bits = 521
  · subst h3; simp [zrtp_ec_init_params]
  simp [zrtp_ec_init_params, h1, h2, h3]

/-! ## Key generation -/

/-- Leading zero bytes do not change the big-endian value of a buffer. -/
theorem bnInsertBigBytes_zeros (k : Nat) (bytes : List Nat) :
    bnInsertBigBytes (List.replicate k 0 ++ bytes) = bnInsertBigBytes bytes := by
  unfold bnInsertBigBytes
  rw [List.foldl_append]
  congr 1
  induction k with
  | zero => rfl
  | succ k ih => simpa [List.replicate_succ] using ih

/-- The scratch buffer on the forced-secret path, read over
`bnBytes(P) + UNIFORMBYTES` bytes: eight zero bytes followed by the secret. -/
theorem forced_buffer_take (s : List Nat) (L : Nat) (hl : s.length = L) :
    ((List.replicate sizeof_zrtp_uchar1024_t 0).take UNIFORMBYTES
        ++ zrtp_memcpy ((List.replicate sizeof_zrtp_uchar1024_t 0).drop UNIFORMBYTES) s
            s.length).take (L + UNIFORMBYTES)
      = List.replicate UNIFORMBYTES 0 ++ s := by
  subst hl
  simp only [UNIFORMBYTES, sizeof_zrtp_uchar1024_t] at *
  simp only [zrtp_memcpy, List.take_replicate, List.drop_replicate, List.take_length]
  have h8 : min 8 1024 = 8 := by decide
  rw [h8, ← List.append_assoc]
  rw [List.take_append_of_le_length (by simp)]
  rw [List.take_of_length_le (by simp)]

/-- C9. Rejection of a bad test vector: when a forced secret is supplied
(`test_sv_data_len` is not zero) and its length differs from `bnBytes(P)`,
`zrtp_ec_random_point` returns a status other than `zrtp_status_ok`, which is
`zrtp_status_fail` once the scratch buffer was allocated, and the outputs
`pkx`, `pky` and `sv` are as they were before the call. -/
theorem zrtp_ec_random_point_rejects (alloc_ok : Bool) (zrtp_randstr : Nat → Int × List Nat)
    (P n : Nat) (G : Point) (out : KeyPair) (test_sv_data : List Nat)
    (hs : test_sv_data ≠ []) (hl : test_sv_data.length ≠ bnBytes P) :
    ∃ st, zrtp_ec_random_point alloc_ok zrtp_randstr P n G out test_sv_data = some (st, out) ∧
      st ≠ zrtp_status_ok ∧ (alloc_ok = true → st = zrtp_status_fail) := by
  have hlen : test_sv_data.length ≠ 0 := by
    intro h; exact hs (List.length_eq_zero.mp h)
  have hl2 : bnBytes P ≠ test_sv_data.length := fun h => hl h.symm
  cases alloc_ok with
  | false =>
    refine ⟨zrtp_status_alloc_fail, ?_, ?_, ?_⟩
    · simp [zrtp_ec_random_point]
    · decide
    · intro h; cases h
  | true =>
    refine ⟨zrtp_status_fail, ?_, ?_, ?_⟩
    · simp [zrtp_ec_random_point, hlen, hl2]
    · decide
    · intro _; rfl

/-- Witness for C9: a two-byte secret offered for the 256-bit curve, whose
modulus has 32 bytes. -/
theorem zrtp_ec_random_point_rejects_witness :
    (([1, 2] : List Nat) ≠ [] ∧ ([1, 2] : List Nat).length ≠ bnBytes P_256) ∧
      ∃ st, zrtp_ec_random_point true (fun _ => (0, [])) P_256 n_256 G_256
          { pkx := 11, pky := 12, sv := 13 } [1, 2]
            = some (st, { pkx := 11, pky := 12, sv := 13 }) ∧
        st ≠ zrtp_status_ok ∧ (true = true → st = zrtp_status_fail) :=
  ⟨⟨by decide, by decide!⟩,
    zrtp_ec_random_point_rejects true (fun _ => (0, [])) P_256 n_256 G_256
      { pkx := 11, pky := 12, sv := 13 } [1, 2] (by decide) (by decide!)⟩

/-- C3. Key-pair invariant: whenever `zrtp_ec_random_point` returns
`zrtp_status_ok` for an order `n > 0`, whatever the buffer was filled with
(random bytes or a forced secret), the secret scalar it outputs is below `n`
and the public point it outputs is `zrtp_ecMul` of that scalar and the base
point. -/
theorem zrtp_ec_random_point_keypair (alloc_ok : Bool) (zrtp_randstr : Nat → Int × List Nat)
    (P n : Nat) (G : Point) (out : KeyPair) (test_sv_data : List Nat) (kp : KeyPair)
    (hn : 0 < n)
    (h : zrtp_ec_random_point alloc_ok zrtp_randstr P n G out test_sv_data
      = some (zrtp_status_ok, kp)) :
    kp.sv < n ∧ (kp.pkx, kp.pky) = zrtp_ecMul kp.sv G P := by
  have key : ∀ buffer, (ecKeyFromBuffer buffer P n G).sv < n ∧
      ((ecKeyFromBuffer buffer P n G).pkx, (ecKeyFromBuffer buffer P n G).pky)
        = zrtp_ecMul (ecKeyFromBuffer buffer P n G).sv G P := by
    intro buffer
    exact ⟨Nat.mod_lt _ hn, rfl⟩
  unfold zrtp_ec_random_point at h
  split at h
  · simp at h
  · simp only at h
    split at h
    · split at h
      · simp at h
      · split at h
        · simp at h
        · simp only [Option.some.injEq, Prod.mk.injEq, true_and] at h
          rw [← h]; exact key _
    · split at h
      · simp at h
      · split at h
        · simp at h
        · simp only [Option.some.injEq, Prod.mk.injEq, true_and] at h
          rw [← h]; exact key _

set_option maxRecDepth 100000 in
/-- Witness for C3: the 256-bit curve with a random source that delivers the
40 bytes asked for, 39 zero bytes and a last byte 5. -/
theorem zrtp_ec_random_point_keypair_witness :
    (0 < n_256 ∧
      zrtp_ec_random_point true (fun len => ((len : Int), List.replicate (len - 1) 0 ++ [5]))
          P_256 n_256 G_256 { pkx := 0, pky := 0, sv := 0 } []
        = some (zrtp_status_ok,
            { pkx := (zrtp_ecMul 5 G_256 P_256).1, pky := (zrtp_ecMul 5 G_256 P_256).2,
              sv := 5 })) ∧
      (5 < n_256 ∧
        ((zrtp_ecMul 5 G_256 P_256).1, (zrtp_ecMul 5 G_256 P_256).2)
          = zrtp_ecMul 5 G_256 P_256) :=
  ⟨⟨by decide!, by decide!⟩,
    zrtp_ec_random_point_keypair true
      (fun len => ((len : Int), List.replicate (len - 1) 0 ++ [5]))
      P_256 n_256 G_256 { pkx := 0, pky := 0, sv := 0 } []
      { pkx := (zrtp_ecMul 5 G_256 P_256).1, pky := (zrtp_ecMul 5 G_256 P_256).2, sv := 5 }
      (by decide!) (by decide!)⟩

/-- C8. Deterministic generation: with a forced secret `s` whose length is
`bnBytes(P)`, an allocated scratch buffer and a modulus whose bytes fit it,
`zrtp_ec_random_point` returns the same result for any two random sources:
`zrtp_status_ok`, the scalar `sv` equal to the big-endian value of `s`
reduced modulo `n`, and the point `zrtp_ecMul` of `sv` and the base point. -/
theorem zrtp_ec_random_point_forced (zrtp_randstr1 zrtp_randstr2 : Nat → Int × List Nat)
    (P n : Nat) (G : Point) (out : KeyPair) (s : List Nat)
    (hs : s ≠ []) (hl : s.length = bnBytes P)
    (hfit : bnBytes P + UNIFORMBYTES ≤ sizeof_zrtp_uchar1024_t) :
    zrtp_ec_random_point true zrtp_randstr1 P n G out s
        = zrtp_ec_random_point true zrtp_randstr2 P n G out s ∧
      zrtp_ec_random_point true zrtp_randstr1 P n G out s
        = some (zrtp_status_ok,
            { pkx := (zrtp_ecMul (bnInsertBigBytes s % n) G P).1,
              pky := (zrtp_ecMul (bnInsertBigBytes s % n) G P).2,
              sv := bnInsertBigBytes s % n }) := by
  have hlen : s.length ≠ 0 := by
    intro h; exact hs (List.length_eq_zero.mp h)
  have hfit2 : ¬ sizeof_zrtp_uchar1024_t < UNIFORMBYTES + s.length := by
    rw [hl]; omega
  have hval : ∀ rs : Nat → Int × List Nat,
      zrtp_ec_random_point true rs P n G out s
        = some (zrtp_status_ok,
            { pkx := (zrtp_ecMul (bnInsertBigBytes s % n) G P).1,
              pky := (zrtp_ecMul (bnInsertBigBytes s % n) G P).2,
              sv := bnInsertBigBytes s % n }) := by
    intro rs
    have hbuf := forced_buffer_take s s.length rfl
    simp only [zrtp_ec_random_point, ecKeyFromBuffer, bnMod, ← hl]
    rw [if_neg (by simp), if_pos hlen, if_neg (by simp), if_neg hfit2, hbuf,
      bnInsertBigBytes_zeros]
  exact ⟨(hval zrtp_randstr1).trans (hval zrtp_randstr2).symm, hval zrtp_randstr1⟩

/-- Witness for C8: the 256-bit curve with the 32-byte secret of value 7 and
two different random sources. -/
theorem zrtp_ec_random_point_forced_witness :
    ((List.replicate 31 0 ++ [7] : List Nat) ≠ [] ∧
      (List.replicate 31 0 ++ [7] : List Nat).length = bnBytes P_256 ∧
      bnBytes P_256 + UNIFORMBYTES ≤ sizeof_zrtp_uchar1024_t) ∧
      (zrtp_ec_random_point true (fun len => ((len : Int), List.replicate len 1))
            P_256 n_256 G_256 { pkx := 0, pky := 0, sv := 0 } (List.replicate 31 0 ++ [7])
          = zrtp_ec_random_point true (fun _ => (-1, []))
            P_256 n_256 G_256 { pkx := 0, pky := 0, sv := 0 } (List.replicate 31 0 ++ [7]) ∧
        zrtp_ec_random_point true (fun len => ((len : Int), List.replicate len 1))
            P_256 n_256 G_256 { pkx := 0, pky := 0, sv := 0 } (List.replicate 31 0 ++ [7])
          = some (zrtp_status_ok,
              { pkx := (zrtp_ecMul (bnInsertBigBytes (List.replicate 31 0 ++ [7]) % n_256)
                  G_256 P_256).1,
                pky := (zrtp_ecMul (bnInsertBigBytes (List.replicate 31 0 ++ [7]) % n_256)
                  G_256 P_256).2,
                sv := bnInsertBigBytes (List.replicate 31 0 ++ [7]) % n_256 })) :=
  ⟨⟨by decide, by decide!, by decide!⟩,
    zrtp_ec_random_point_forced (fun len => ((len : Int), List.replicate len 1))
      (fun _ => (-1, [])) P_256 n_256 G_256 { pkx := 0, pky := 0, sv := 0 }
      (List.replicate 31 0 ++ [7]) (by decide) (by decide!) (by decide!)⟩

/-! ## Adding a point to its negation -/

/-- The sum of the point `(1, 1)` and its negation `(1, 4)` modulo 5 is not
the identity whatever value the inverse of the zero difference `x2 - x1` is
taken to be: the slope `gam` would need a square equal to 2 modulo 5. -/
theorem ecTail_neg_small (i : Nat) :
    ecTail (bnMulMod_ (bnSubMod_ 4 1 5) i 5) (1, 1) (1, 4) 5 ≠ (0, 0) := by
  have hg : bnMulMod_ (bnSubMod_ 4 1 5) i 5 < 5 := by
    simp only [bnMulMod_, bnMod]
    exact Nat.mod_lt _ (by decide)
  generalize bnMulMod_ (bnSubMod_ 4 1 5) i 5 = g at hg
  interval_cases g <;> decide

/-- C2. Inverse law, evaluated on the code: for the point `(1, 1)` modulo 5
and for the base point of the 256-bit curve, both within the stated ranges,
`zrtp_ecAdd` of the point and its negation `(x, mod - y)` does not return the
identity `(0, 0)`; the test commented "p1 == -p2" adds the two x coordinates
and is passed over. -/
theorem zrtp_ecAdd_neg_not_identity :
    zrtp_ecAdd (1, 1) (1, 5 - 1) 5 = (3, 4) ∧
      (G_256.1 < P_256 ∧ 0 < G_256.2 ∧ G_256.2 < P_256) ∧
      zrtp_ecAdd G_256 (G_256.1, P_256 - G_256.2) P_256
        = (0x29d05c193da77b710e86323538b77e1b11f904fea42998be16bd8d744ece7ad3,
           0xb01cbd1c01e58065711814b583f061e9d431cca994cea1313449bf97c840ae0a) := by
  refine ⟨by decide!, by decide!, by decide!⟩

/-! ## The order of the base point -/

/-- C1. Order law, evaluated on the code for the 256-bit curve: `zrtp_ecMul`
of the base point by the curve order returns the point below and not the
identity `(0, 0)`.  The last addition of the loop adds a point to its
negation, which `zrtp_ecAdd` does not recognise. -/
theorem zrtp_ecMul_order_256 :
    zrtp_ecMul n_256 G_256 P_256
        = (0x109beadca329b9da5f322ddcedd5b6876203953f382db95e95a426e19141a957,
           0xa3dc291825cea3f7f7b10bfcdd038a72df623da1e850e0f1caa801fcd6cc67ff) ∧
      zrtp_ecMul n_256 G_256 P_256 ≠ (0, 0) := by
  have h : zrtp_ecMul n_256 G_256 P_256
        = (0x109beadca329b9da5f322ddcedd5b6876203953f382db95e95a426e19141a957,
           0xa3dc291825cea3f7f7b10bfcdd038a72df623da1e850e0f1caa801fcd6cc67ff) := by decide!
  refine ⟨h, ?_⟩
  rw [h]
  decide

/-! ## Small multiples of the base points -/

set_option maxRecDepth 100000 in
/-- C6. Distribution over small scalars: on each of the three curves, for all
scalars `a` and `b` up to 4, `zrtp_ecMul` of the base point by `a + b` equals
`zrtp_ecAdd` of its multiples by `a` and by `b`. -/
theorem zrtp_ecMul_add_small (a b : Nat) (ha : a ≤ 4) (hb : b ≤ 4) :
    zrtp_ecMul (a + b) G_256 P_256
        = zrtp_ecAdd (zrtp_ecMul a G_256 P_256) (zrtp_ecMul b G_256 P_256) P_256 ∧
      zrtp_ecMul (a + b) G_384 P_384
        = zrtp_ecAdd (zrtp_ecMul a G_384 P_384) (zrtp_ecMul b G_384 P_384) P_384 ∧
      zrtp_ecMul (a + b) G_521 P_521
        = zrtp_ecAdd (zrtp_ecMul a G_521 P_521) (zrtp_ecMul b G_521 P_521) P_521 := by
  interval_cases a <;> interval_cases b <;> decide!

/-- Witness for C6 at `a = 3`, `b = 4`. -/
theorem zrtp_ecMul_add_small_witness :
    (3 ≤ 4 ∧ 4 ≤ 4) ∧
      (zrtp_ecMul (3 + 4) G_256 P_256
          = zrtp_ecAdd (zrtp_ecMul 3 G_256 P_256) (zrtp_ecMul 4 G_256 P_256) P_256 ∧
        zrtp_ecMul (3 + 4) G_384 P_384
          = zrtp_ecAdd (zrtp_ecMul 3 G_384 P_384) (zrtp_ecMul 4 G_384 P_384) P_384 ∧
        zrtp_ecMul (3 + 4) G_521 P_521
          = zrtp_ecAdd (zrtp_ecMul 3 G_521 P_521) (zrtp_ecMul 4 G_521 P_521) P_521) :=
  ⟨⟨by decide, by decide⟩, zrtp_ecMul_add_small 3 4 (by decide) (by decide)⟩

/-! ## The modular shorthands on reduced operands -/

/-- On reduced operands `bnAddMod_` is the sum reduced modulo `m`. -/
theorem bnAddMod__mod (a b m : Nat) (ha : a < m) (hb : b < m) :
    bnAddMod_ a b m = (a + b) % m := by
  simp only [bnAddMod_, bnAdd, bnSub]
  by_cases hc : m ≤ a + b
  · rw [if_pos hc, if_pos hc]
    have h1 : a + b - m < m := by omega
    rw [← Nat.mod_eq_of_lt h1, ← Nat.mod_eq_sub_mod hc]
  · rw [if_neg hc]
    exact (Nat.mod_eq_of_lt (by omega)).symm

/-- C12. `bnAddMod_` on reduced operands: for `m > 0`, `a < m` and `b < m`
the result is exactly `(a + b) mod m`, a value below `m`. -/
theorem bnAddMod__correct (a b m : Nat) (hm : 0 < m) (ha : a < m) (hb : b < m) :
    bnAddMod_ a b m = (a + b) % m ∧ bnAddMod_ a b m < m := by
  have h := bnAddMod__mod a b m ha hb
  exact ⟨h, h ▸ Nat.mod_lt _ hm⟩

/-- Witness for C12 at `a = 5`, `b = 4`, `m = 7`. -/
theorem bnAddMod__correct_witness :
    ((0 < 7 ∧ 5 < 7 ∧ 4 < 7) ∧ (bnAddMod_ 5 4 7 = (5 + 4) % 7 ∧ bnAddMod_ 5 4 7 < 7)) :=
  ⟨by decide, bnAddMod__correct 5 4 7 (by decide) (by decide) (by decide)⟩

/-- On reduced operands `bnSubMod_` returns a reduced value. -/
theorem bnSubMod__lt (a b m : Nat) (ha : a < m) (hb : b < m) : bnSubMod_ a b m < m := by
  simp only [bnSubMod_, bnAdd, bnSub]
  split <;> split <;> omega

/-- On reduced operands `bnSubMod_` is the difference in `ZMod m`. -/
theorem bnSubMod__cast (a b m : Nat) (hb : b < m) :
    ((bnSubMod_ a b m : Nat) : ZMod m) = (a : ZMod m) - (b : ZMod m) := by
  simp only [bnSubMod_, bnAdd, bnSub]
  by_cases hc : a < b
  · rw [if_pos hc, if_pos (by omega)]
    rw [Nat.cast_sub (by omega), Nat.cast_add, ZMod.natCast_self, add_zero]
  · rw [if_neg hc, if_pos (by omega)]
    rw [Nat.cast_sub (by omega)]

/-- C13. `bnSubMod_` on reduced operands: for `m > 0`, `a < m` and `b < m`
the value subtracted from is never the smaller one, the result is the residue
of `a - b` modulo `m` in `[0, m)`, and `bnSubQMod_` returns the same value. -/
theorem bnSubMod__correct (a b m : Nat) (ha : a < m) (hb : b < m) :
    b ≤ (if a < b then bnAdd a m else a) ∧
      ((bnSubMod_ a b m : Nat) : Int) = ((a : Int) - (b : Int)) % (m : Int) ∧
      bnSubMod_ a b m < m ∧
      bnSubQMod_ a b m = bnSubMod_ a b m := by
  refine ⟨?_, ?_, bnSubMod__lt a b m ha hb, rfl⟩
  · simp only [bnAdd]; split <;> omega
  · simp only [bnSubMod_, bnAdd, bnSub]
    by_cases hc : a < b
    · rw [if_pos hc, if_pos (by omega)]
      have h1 : ((a : Int) - b) % m = (a : Int) - b + m := by
        rw [← Int.add_emod_self]
        exact Int.emod_eq_of_lt (by omega) (by omega)
      rw [h1]; omega
    · rw [if_neg hc, if_pos (by omega)]
      have h1 : ((a : Int) - b) % m = (a : Int) - b :=
        Int.emod_eq_of_lt (by omega) (by omega)
      rw [h1]; omega

/-- Witness for C13 at `a = 2`, `b = 5`, `m = 7`. -/
theorem bnSubMod__correct_witness :
    (2 < 7 ∧ 5 < 7) ∧
      (5 ≤ (if 2 < 5 then bnAdd 2 7 else 2) ∧
        ((bnSubMod_ 2 5 7 : Nat) : Int) = (((2 : Nat) : Int) - ((5 : Nat) : Int)) % ((7 : Nat) : Int) ∧
        bnSubMod_ 2 5 7 < 7 ∧
        bnSubQMod_ 2 5 7 = bnSubMod_ 2 5 7) :=
  ⟨by decide, bnSubMod__correct 2 5 7 (by decide) (by decide)⟩

/-! ## Curve selection: the record after a refused request -/

/-- C11, as the code has it: for a bit size other than 256, 384 and 521
`zrtp_ec_init_params` fails and leaves the five byte arrays of the record as
they were, while the field `ec_bits` holds the requested bit size. -/
theorem zrtp_ec_init_params_refused (params : zrtp_ec_params) (bits : Nat)
    (h : ¬ (bits = 256 ∨ bits = 384 ∨ bits = 521)) :
    zrtp_ec_init_params params bits
      = (zrtp_status_bad_param, { params with ec_bits := bits }) := by
  have h1 : bits ≠ 256 := fun e => h (Or.inl e)
  have h2 : bits ≠ 384 := fun e => h (Or.inr (Or.inl e))
  have h3 : bits ≠ 521 := fun e => h (Or.inr (Or.inr e))
  simp [zrtp_ec_init_params, h1, h2, h3]

/-- Witness for C11 as amended: a request for 512 bits on a record holding the
256-bit curve. -/
theorem zrtp_ec_init_params_refused_witness :
    ¬ ((512 : Nat) = 256 ∨ (512 : Nat) = 384 ∨ (512 : Nat) = 521) ∧
      zrtp_ec_init_params params_256 512
        = (zrtp_status_bad_param, { params_256 with ec_bits := 512 }) :=
  ⟨by decide, zrtp_ec_init_params_refused params_256 512 (by decide)⟩

/-- C11 fails on the code: a request for 512 bits is refused, yet the record
that held `ec_bits = 256` comes back with `ec_bits = 512`. -/
theorem zrtp_ec_init_params_not_atomic :
    ¬ ((512 : Nat) = 256 ∨ (512 : Nat) = 384 ∨ (512 : Nat) = 521) ∧
      (zrtp_ec_init_params params_256 512).1 = zrtp_status_bad_param ∧
      (zrtp_ec_init_params params_256 512).2 ≠ params_256 ∧
      (zrtp_ec_init_params params_256 512).2.ec_bits = 512 ∧ params_256.ec_bits = 256 := by
  refine ⟨by decide, by simp [zrtp_ec_init_params], ?_, by simp [zrtp_ec_init_params], rfl⟩
  intro h
  have h2 := congrArg zrtp_ec_params.ec_bits h
  simp [zrtp_ec_init_params, params_256] at h2

/-! ## Reduced coordinates -/

/-- The tail of `zrtp_ecAdd` returns reduced coordinates for reduced operands,
whatever the slope. -/
theorem ecTail_lt (gam : Nat) (p1 p2 : Point) (m : Nat) (hm : 0 < m)
    (h1x : p1.1 < m) (h1y : p1.2 < m) (h2x : p2.1 < m) :
    (ecTail gam p1 p2 m).1 < m ∧ (ecTail gam p1 p2 m).2 < m := by
  have hx : (ecTail gam p1 p2 m).1 < m := by
    simp only [ecTail]
    exact bnSubMod__lt _ _ _
      (bnSubMod__lt _ _ _ (by simp only [bnSquareMod_, bnMod]; exact Nat.mod_lt _ hm) h1x) h2x
  refine ⟨hx, ?_⟩
  simp only [ecTail]
  exact bnSubMod__lt _ _ _ (by simp only [bnMulMod_, bnMod]; exact Nat.mod_lt _ hm) h1y

/-- `zrtp_ecAdd` returns reduced coordinates for reduced operands. -/
theorem zrtp_ecAdd_lt (p1 p2 : Point) (m : Nat) (hm : 0 < m)
    (h1x : p1.1 < m) (h1y : p1.2 < m) (h2x : p2.1 < m) (h2y : p2.2 < m) :
    (zrtp_ecAdd p1 p2 m).1 < m ∧ (zrtp_ecAdd p1 p2 m).2 < m := by
  unfold zrtp_ecAdd
  split
  · exact ⟨h2x, h2y⟩
  · split
    · exact ⟨h1x, h1y⟩
    · split
      · exact ⟨hm, hm⟩
      · exact ecTail_lt _ p1 p2 m hm h1x h1y h2x

/-- The double-and-add loop keeps its base and its accumulator reduced. -/
theorem ecMulLoop_lt (m : Nat) (hm : 0 < m) :
    ∀ (fuel tmult : Nat) (tbase trslt : Point),
      tbase.1 < m → tbase.2 < m → trslt.1 < m → trslt.2 < m →
      (ecMulLoop m fuel tmult tbase trslt).1 < m ∧ (ecMulLoop m fuel tmult tbase trslt).2 < m := by
  intro fuel
  induction fuel with
  | zero => intro tmult tbase trslt _ _ hx hy; exact ⟨hx, hy⟩
  | succ f ih =>
    intro tmult tbase trslt hbx hby hx hy
    simp only [ecMulLoop]
    split
    · have hb := zrtp_ecAdd_lt tbase tbase m hm hbx hby hbx hby
      have hr : (if bnLSWord tmult % 2 = 1 then zrtp_ecAdd trslt tbase m else trslt).1 < m ∧
          (if bnLSWord tmult % 2 = 1 then zrtp_ecAdd trslt tbase m else trslt).2 < m := by
        split
        · exact zrtp_ecAdd_lt trslt tbase m hm hx hy hbx hby
        · exact ⟨hx, hy⟩
      exact ih _ _ _ hb.1 hb.2 hr.1 hr.2
    · exact ⟨hx, hy⟩

/-- C20. Reduced coordinates are preserved: for `m > 0`, `zrtp_ecAdd` of two
points with coordinates below `m` has both coordinates below `m`, and so has
`zrtp_ecMul` of any scalar and a base point with coordinates below `m`. -/
theorem zrtp_ecAdd_ecMul_reduced (m : Nat) (hm : 0 < m) :
    (∀ p1 p2 : Point, p1.1 < m → p1.2 < m → p2.1 < m → p2.2 < m →
        (zrtp_ecAdd p1 p2 m).1 < m ∧ (zrtp_ecAdd p1 p2 m).2 < m) ∧
      (∀ (k : Nat) (base : Point), base.1 < m → base.2 < m →
        (zrtp_ecMul k base m).1 < m ∧ (zrtp_ecMul k base m).2 < m) := by
  refine ⟨fun p1 p2 h1 h2 h3 h4 => zrtp_ecAdd_lt p1 p2 m hm h1 h2 h3 h4, ?_⟩
  intro k base hx hy
  exact ecMulLoop_lt m hm k k base (0, 0) hx hy hm hm

/-- Witness for C20 at the modulus 7. -/
theorem zrtp_ecAdd_ecMul_reduced_witness :
    0 < 7 ∧
      ((∀ p1 p2 : Point, p1.1 < 7 → p1.2 < 7 → p2.1 < 7 → p2.2 < 7 →
          (zrtp_ecAdd p1 p2 7).1 < 7 ∧ (zrtp_ecAdd p1 p2 7).2 < 7) ∧
        (∀ (k : Nat) (base : Point), base.1 < 7 → base.2 < 7 →
          (zrtp_ecMul k base 7).1 < 7 ∧ (zrtp_ecMul k base 7).2 < 7)) :=
  ⟨by decide, zrtp_ecAdd_ecMul_reduced 7 (by decide)⟩

/-! ## The buffers of the key generator and their values -/

/-- Appending a last byte to a buffer shifts its big-endian value by one byte. -/
theorem bnInsertBigBytes_append_byte (bs : List Nat) (b : Nat) :
    bnInsertBigBytes (bs ++ [b]) = bnInsertBigBytes bs * 256 + b % 256 := by
  simp [bnInsertBigBytes, List.foldl_append]

/-- The blocks `v * m, ..., v * m + (m - 1)` for `v < a`, one after the other,
are the numbers below `a * m`. -/
theorem range_flatMap_block (m : Nat) : ∀ a : Nat,
    (List.range a).flatMap (fun v => (List.range m).map (fun b => v * m + b))
      = List.range (a * m) := by
  intro a
  induction a with
  | zero => simp
  | succ a ih =>
    rw [List.range_succ, List.flatMap_append, ih, Nat.succ_mul, List.range_add]
    simp

/-- The buffers of `k` bytes, in the order `allBuffers` lists them, have the
big-endian values `0, 1, ..., 256 ^ k - 1`: reading a buffer is a one-to-one
correspondence between the buffers and these numbers. -/
theorem allBuffers_values : ∀ k : Nat,
    (allBuffers k).map bnInsertBigBytes = List.range (256 ^ k) := by
  intro k
  induction k with
  | zero => rfl
  | succ k ih =>
    have hstep : ∀ bs : List Nat,
        ((List.range 256).map (fun b => bs ++ [b])).map bnInsertBigBytes
          = (List.range 256).map (fun b => bnInsertBigBytes bs * 256 + b) := by
      intro bs
      rw [List.map_map]
      apply List.map_congr_left
      intro b hb
      have hb2 : b < 256 := List.mem_range.mp hb
      simp [bnInsertBigBytes_append_byte, Nat.mod_eq_of_lt hb2]
    have hmap : (allBuffers (k + 1)).map bnInsertBigBytes
        = ((allBuffers k).map bnInsertBigBytes).flatMap
            (fun v => (List.range 256).map (fun b => v * 256 + b)) := by
      simp only [allBuffers, List.map_flatMap, List.flatMap_map, hstep]
    rw [hmap, ih, range_flatMap_block, pow_succ]

/-- The members of `allBuffers k` are the lists of `k` values below 256. -/
theorem mem_allBuffers : ∀ (k : Nat) (buffer : List Nat),
    buffer ∈ allBuffers k ↔ buffer.length = k ∧ ∀ b ∈ buffer, b < 256 := by
  intro k
  induction k with
  | zero =>
    intro buffer
    simp only [allBuffers, List.mem_singleton]
    constructor
    · intro h; subst h; simp
    · intro h; exact List.length_eq_zero.mp h.1
  | succ k ih =>
    intro buffer
    simp only [allBuffers, List.mem_flatMap, List.mem_map, List.mem_range]
    constructor
    · rintro ⟨bs, hbs, b, hb, rfl⟩
      obtain ⟨hl, hlt⟩ := (ih bs).1 hbs
      refine ⟨by simp [hl], ?_⟩
      intro c hc
      rcases List.mem_append.mp hc with h | h
      · exact hlt c h
      · have : c = b := by simpa using h
        omega
    · rintro ⟨hl, hlt⟩
      have hne : buffer ≠ [] := by
        intro h; rw [h] at hl; simp at hl
      refine ⟨buffer.dropLast, (ih _).2 ⟨by simp [hl], ?_⟩, buffer.getLast hne, ?_, ?_⟩
      · intro b hb
        exact hlt b (List.mem_of_mem_dropLast hb)
      · exact hlt _ (List.getLast_mem hne)
      · exact List.dropLast_append_getLast hne

/-- No buffer is listed twice. -/
theorem allBuffers_nodup (k : Nat) : (allBuffers k).Nodup := by
  have h : ((allBuffers k).map bnInsertBigBytes).Nodup := by
    rw [allBuffers_values]; exact List.nodup_range _
  exact List.Nodup.of_map _ h

/-- Counting over a range as a list is `Nat.count`. -/
theorem countP_range_eq_count (p : Nat → Bool) : ∀ N : Nat,
    (List.range N).countP p = Nat.count (fun v => p v = true) N := by
  intro N
  induction N with
  | zero => simp
  | succ N ih =>
    rw [List.range_succ, List.countP_append, ih, Nat.count_succ]
    by_cases h : p N = true <;> simp [h]

/-- Among the numbers below `N`, the residue `r` modulo `n` is taken
`N / n` times, and once more when `r < N % n`. -/
theorem countP_range_mod (N n r : Nat) (hn : 0 < n) (hr : r < n) :
    (List.range N).countP (fun v => decide (v % n = r))
      = N / n + if r < N % n then 1 else 0 := by
  have hp : ∀ v : Nat, (v % n = r) ↔ (v ≡ r [MOD n]) := fun v => by
    unfold Nat.ModEq; rw [Nat.mod_eq_of_lt hr]
  have hc : ∀ M : Nat, Nat.count (fun v => v % n = r) M
      = Nat.count (fun x => x ≡ r [MOD n]) M := by
    intro M
    induction M with
    | zero => simp
    | succ M ih => rw [Nat.count_succ, Nat.count_succ, ih]; simp only [hp]
  have h := @Nat.count_modEq_card N n hn r
  rw [Nat.mod_eq_of_lt hr] at h
  rw [countP_range_eq_count, ← h]
  simp only [decide_eq_true_eq]
  exact hc N

/-- The number of `k`-byte buffers that `zrtp_ec_random_point` maps to the
scalar `r`, for an order `n > 0` and `k = bnBytes(P) + UNIFORMBYTES`. -/
theorem svPreimages_eq (P n : Nat) (G : Point) (r : Nat) (hn : 0 < n) (hr : r < n) :
    svPreimages P n G (bnBytes P + UNIFORMBYTES) r
      = 256 ^ (bnBytes P + UNIFORMBYTES) / n
        + if r < 256 ^ (bnBytes P + UNIFORMBYTES) % n then 1 else 0 := by
  have hsv : ∀ buffer ∈ allBuffers (bnBytes P + UNIFORMBYTES),
      ((ecKeyFromBuffer buffer P n G).sv = r) ↔ (bnInsertBigBytes buffer % n = r) := by
    intro buffer hb
    have hl := ((mem_allBuffers _ buffer).1 hb).1
    simp only [ecKeyFromBuffer, bnMod]
    rw [List.take_of_length_le (by omega)]
  unfold svPreimages
  have hcongr : (allBuffers (bnBytes P + UNIFORMBYTES)).countP
        (fun buffer => decide ((ecKeyFromBuffer buffer P n G).sv = r))
      = (allBuffers (bnBytes P + UNIFORMBYTES)).countP
        ((fun v => decide (v % n = r)) ∘ bnInsertBigBytes) := by
    apply List.countP_congr
    intro b hb
    simp only [Function.comp, decide_eq_true_eq]
    exact hsv b hb
  rw [hcongr, ← List.countP_map, allBuffers_values]
  exact countP_range_mod _ n r hn hr

/-- C17. Debiasing bound: on each of the three curves, with
`k = bnBytes(P) + UNIFORMBYTES` (40, 56 or 74 bytes), every scalar `r` below
the order `n` is the value `zrtp_ec_random_point` derives from either
`⌊256 ^ k / n⌋` or `⌊256 ^ k / n⌋ + 1` of the `256 ^ k` buffers, and
`⌊256 ^ k / n⌋` is at least `2 ^ 64`. -/
theorem zrtp_ec_random_point_near_uniform (P n : Nat) (G : Point) (r : Nat)
    (hc : (P = P_256 ∧ n = n_256 ∧ G = G_256) ∨ (P = P_384 ∧ n = n_384 ∧ G = G_384) ∨
      (P = P_521 ∧ n = n_521 ∧ G = G_521))
    (hr : r < n) :
    (bnBytes P = 32 ∨ bnBytes P = 48 ∨ bnBytes P = 66) ∧
      (allBuffers (bnBytes P + UNIFORMBYTES)).length = 256 ^ (bnBytes P + UNIFORMBYTES) ∧
      (svPreimages P n G (bnBytes P + UNIFORMBYTES) r = 256 ^ (bnBytes P + UNIFORMBYTES) / n ∨
        svPreimages P n G (bnBytes P + UNIFORMBYTES) r
          = 256 ^ (bnBytes P + UNIFORMBYTES) / n + 1) ∧
      2 ^ 64 ≤ 256 ^ (bnBytes P + UNIFORMBYTES) / n := by
  have hn : 0 < n := by omega
  have hlen : (allBuffers (bnBytes P + UNIFORMBYTES)).length
      = 256 ^ (bnBytes P + UNIFORMBYTES) := by
    have h := congrArg List.length (allBuffers_values (bnBytes P + UNIFORMBYTES))
    simpa using h
  have hcount : svPreimages P n G (bnBytes P + UNIFORMBYTES) r
        = 256 ^ (bnBytes P + UNIFORMBYTES) / n ∨
      svPreimages P n G (bnBytes P + UNIFORMBYTES) r
        = 256 ^ (bnBytes P + UNIFORMBYTES) / n + 1 := by
    rw [svPreimages_eq P n G r hn hr]
    split
    · exact Or.inr rfl
    · exact Or.inl rfl
  refine ⟨?_, hlen, hcount, ?_⟩
  · rcases hc with ⟨hP, _, _⟩ | ⟨hP, _, _⟩ | ⟨hP, _, _⟩ <;> subst hP
    · exact Or.inl (by decide!)
    · exact Or.inr (Or.inl (by decide!))
    · exact Or.inr (Or.inr (by decide!))
  · rcases hc with ⟨hP, hn2, _⟩ | ⟨hP, hn2, _⟩ | ⟨hP, hn2, _⟩ <;>
      (subst hP; subst hn2; decide!)

/-- Witness for C17: the scalar 5 on the 256-bit curve. -/
theorem zrtp_ec_random_point_near_uniform_witness :
    (((P_256 = P_256 ∧ n_256 = n_256 ∧ G_256 = G_256) ∨
        (P_256 = P_384 ∧ n_256 = n_384 ∧ G_256 = G_384) ∨
        (P_256 = P_521 ∧ n_256 = n_521 ∧ G_256 = G_521)) ∧ 5 < n_256) ∧
      ((bnBytes P_256 = 32 ∨ bnBytes P_256 = 48 ∨ bnBytes P_256 = 66) ∧
        (allBuffers (bnBytes P_256 + UNIFORMBYTES)).length
          = 256 ^ (bnBytes P_256 + UNIFORMBYTES) ∧
        (svPreimages P_256 n_256 G_256 (bnBytes P_256 + UNIFORMBYTES) 5
            = 256 ^ (bnBytes P_256 + UNIFORMBYTES) / n_256 ∨
          svPreimages P_256 n_256 G_256 (bnBytes P_256 + UNIFORMBYTES) 5
            = 256 ^ (bnBytes P_256 + UNIFORMBYTES) / n_256 + 1) ∧
        2 ^ 64 ≤ 256 ^ (bnBytes P_256 + UNIFORMBYTES) / n_256) :=
  ⟨⟨Or.inl ⟨rfl, rfl, rfl⟩, by decide!⟩,
    zrtp_ec_random_point_near_uniform P_256 n_256 G_256 5 (Or.inl ⟨rfl, rfl, rfl⟩)
      (by decide!)⟩

/-! ## The base points and their curves -/

/-- The first `n` bytes of an array after `zrtp_memcpy` of `n` bytes are the
first `n` bytes of the source. -/
theorem zrtp_memcpy_take (dst src : List Nat) (n : Nat) (h : n ≤ src.length) :
    (zrtp_memcpy dst src n).take n = src.take n := by
  unfold zrtp_memcpy
  rw [List.take_append_of_le_length (by simp [h])]
  simp

/-- C19. Base points lie on their curves: for each of the bit sizes 256, 384
and 521, the record filled by `zrtp_ec_init_params`, read big-endian over
`(bits + 7) / 8` bytes, holds a base point that satisfies
`Gy² = Gx³ - 3 Gx + b (mod P)`, with `Gx`, `Gy`, `b` and `n` all strictly
between 0 and `P`. -/
theorem zrtp_ec_init_params_on_curve (params : zrtp_ec_params) (bits : Nat)
    (h : bits = 256 ∨ bits = 384 ∨ bits = 521) :
    let r := (zrtp_ec_init_params params bits).2
    let L := (bits + 7) / 8
    let P := bnInsertBigBytes (r.P_data.take L)
    let n := bnInsertBigBytes (r.n_data.take L)
    let b := bnInsertBigBytes (r.b_data.take L)
    let Gx := bnInsertBigBytes (r.Gx_data.take L)
    let Gy := bnInsertBigBytes (r.Gy_data.take L)
    ecOnCurve Gx Gy b P ∧ (0 < Gx ∧ Gx < P) ∧ (0 < Gy ∧ Gy < P) ∧ (0 < b ∧ b < P) ∧
      (0 < n ∧ n < P) := by
  rcases h with h | h | h <;> subst h
  · simp only [zrtp_ec_init_params]
    norm_num only
    simp only [reduceIte, zrtp_memcpy_take _ P_256_data 32 (by decide),
      zrtp_memcpy_take _ n_256_data 32 (by decide), zrtp_memcpy_take _ b_256_data 32 (by decide),
      zrtp_memcpy_take _ Gx_256_data 32 (by decide), zrtp_memcpy_take _ Gy_256_data 32 (by decide)]
    decide!
  · simp only [zrtp_ec_init_params]
    norm_num only
    simp only [reduceIte, zrtp_memcpy_take _ P_384_data 48 (by decide),
      zrtp_memcpy_take _ n_384_data 48 (by decide), zrtp_memcpy_take _ b_384_data 48 (by decide),
      zrtp_memcpy_take _ Gx_384_data 48 (by decide), zrtp_memcpy_take _ Gy_384_data 48 (by decide)]
    decide!
  · simp only [zrtp_ec_init_params]
    norm_num only
    simp only [reduceIte, zrtp_memcpy_take _ P_521_data 66 (by decide),
      zrtp_memcpy_take _ n_521_data 66 (by decide), zrtp_memcpy_take _ b_521_data 66 (by decide),
      zrtp_memcpy_take _ Gx_521_data 66 (by decide), zrtp_memcpy_take _ Gy_521_data 66 (by decide)]
    decide!

/-- Witness for C19: the 384-bit curve written over a record that held the
256-bit curve. -/
theorem zrtp_ec_init_params_on_curve_witness :
    ((384 : Nat) = 256 ∨ (384 : Nat) = 384 ∨ (384 : Nat) = 521) ∧
      (let r := (zrtp_ec_init_params params_256 384).2
       let L := (384 + 7) / 8
       let P := bnInsertBigBytes (r.P_data.take L)
       let n := bnInsertBigBytes (r.n_data.take L)
       let b := bnInsertBigBytes (r.b_data.take L)
       let Gx := bnInsertBigBytes (r.Gx_data.take L)
       let Gy := bnInsertBigBytes (r.Gy_data.take L)
       ecOnCurve Gx Gy b P ∧ (0 < Gx ∧ Gx < P) ∧ (0 < Gy ∧ Gy < P) ∧ (0 < b ∧ b < P) ∧
         (0 < n ∧ n < P)) :=
  ⟨by decide, zrtp_ec_init_params_on_curve params_256 384 (by decide)⟩

/-! ## The shorthands and the point addition in the field `ZMod p` -/

/-- In `ZMod m`, `bnAddMod_` is the sum. -/
theorem bnAddMod__cast (a b m : Nat) :
    ((bnAddMod_ a b m : Nat) : ZMod m) = (a : ZMod m) + (b : ZMod m) := by
  simp only [bnAddMod_, bnAdd, bnSub]
  by_cases hc : m ≤ a + b
  · rw [if_pos hc, if_pos hc, Nat.cast_sub hc, ZMod.natCast_self, sub_zero, Nat.cast_add]
  · rw [if_neg hc, Nat.cast_add]

/-- In `ZMod m`, `bnMulMod_` is the product. -/
theorem bnMulMod__cast (a b m : Nat) :
    ((bnMulMod_ a b m : Nat) : ZMod m) = (a : ZMod m) * (b : ZMod m) := by
  simp only [bnMulMod_, bnMod, bnMul, ZMod.natCast_mod, Nat.cast_mul]

/-- In `ZMod m`, `bnSquareMod_` is the square. -/
theorem bnSquareMod__cast (a m : Nat) :
    ((bnSquareMod_ a m : Nat) : ZMod m) = (a : ZMod m) ^ 2 := by
  simp only [bnSquareMod_, bnMod, bnSquare, ZMod.natCast_mod, Nat.cast_mul, sq]

/-- For a prime modulus the modelled `bnInv` is the inverse of the field
`ZMod p`, the value 0 included, which both send to 0. -/
theorem bnInv_cast (t p : Nat) (hp : p.Prime) :
    ((bnInv t p : Nat) : ZMod p) = ((t : Nat) : ZMod p)⁻¹ := by
  haveI := Fact.mk hp
  by_cases h0 : (t : ZMod p) = 0
  · have hd : p ∣ t := (ZMod.natCast_zmod_eq_zero_iff_dvd t p).1 h0
    have hmod : t % p = 0 := Nat.mod_eq_zero_of_dvd hd
    have hp1 : p ≠ 1 := hp.one_lt.ne'
    have hz : bnInv t p = 0 := by simp [bnInv, bnInvLoop, hmod, hp1]
    rw [hz, h0]; simp
  · have hnd : ¬ p ∣ t := fun hd => h0 ((ZMod.natCast_zmod_eq_zero_iff_dvd t p).2 hd)
    have hco : Nat.Coprime t p := ((Nat.Prime.coprime_iff_not_dvd hp).2 hnd).symm
    have hs := bnInv_spec t p hp.pos hco
    have hc : ((t * bnInv t p : Nat) : ZMod p) = ((1 : Nat) : ZMod p) :=
      (ZMod.natCast_eq_natCast_iff' _ _ _).2 hs
    push_cast at hc
    exact eq_inv_of_mul_eq_one_right hc

/-- The tail of `zrtp_ecAdd` in `ZMod m`, for reduced operands. -/
theorem ecTail_cast (gam x1 y1 x2 y2 m : Nat) (hm : 0 < m)
    (hx1 : x1 < m) (hy1 : y1 < m) (hx2 : x2 < m) :
    (((ecTail gam (x1, y1) (x2, y2) m).1 : Nat) : ZMod m)
        = (gam : ZMod m) ^ 2 - x1 - x2 ∧
      (((ecTail gam (x1, y1) (x2, y2) m).2 : Nat) : ZMod m)
        = (gam : ZMod m) * ((x1 : ZMod m) - ((ecTail gam (x1, y1) (x2, y2) m).1 : Nat)) - y1 := by
  have hlt := (ecTail_lt gam (x1, y1) (x2, y2) m hm hx1 hy1 hx2).1
  have hx : (((ecTail gam (x1, y1) (x2, y2) m).1 : Nat) : ZMod m)
      = (gam : ZMod m) ^ 2 - x1 - x2 := by
    simp only [ecTail]
    rw [bnSubMod__cast _ _ _ hx2, bnSubMod__cast _ _ _ hx1, bnSquareMod__cast]
  refine ⟨hx, ?_⟩
  simp only [ecTail] at hlt ⊢
  rw [bnSubMod__cast _ _ _ hy1, bnMulMod__cast, bnSubMod__cast _ _ _ hlt]
  ring

/-- The chord slope of `zrtp_ecAdd` in `ZMod p`. -/
theorem ecGamma_chord_cast (x1 y1 x2 y2 p : Nat) (hp : p.Prime)
    (hx1 : x1 < p) (hy1 : y1 < p) (hne : ¬ (x1 = x2 ∧ y1 = y2)) :
    ((ecGamma (x1, y1) (x2, y2) p : Nat) : ZMod p)
      = ((y2 : ZMod p) - y1) * ((x2 : ZMod p) - x1)⁻¹ := by
  simp only [ecGamma, if_neg hne]
  rw [bnMulMod__cast, bnInv_cast _ _ hp, bnSubMod__cast _ _ _ hy1, bnSubMod__cast _ _ _ hx1]

/-- The tangent slope of `zrtp_ecAdd` in `ZMod p`, for `p > 3`. -/
theorem ecGamma_tangent_cast (x y p : Nat) (hp : p.Prime) (hp3 : 3 < p) :
    ((ecGamma (x, y) (x, y) p : Nat) : ZMod p)
      = (3 * (x : ZMod p) ^ 2 - 3) * (2 * (y : ZMod p))⁻¹ := by
  simp only [ecGamma, and_self, if_true]
  have hq : ∀ g : Nat, bnSubQMod_ g 3 p = bnSubMod_ g 3 p := fun _ => rfl
  have hq2 : ∀ g : Nat, bnMulQMod_ g 3 p = bnMulMod_ g 3 p := fun _ => rfl
  rw [bnMulMod__cast, bnInv_cast _ _ hp, bnAddMod__cast, hq, bnSubMod__cast _ _ _ hp3, hq2,
    bnMulMod__cast, bnSquareMod__cast]
  push_cast
  ring_nf

/-- Distinct reduced values differ in `ZMod m`. -/
theorem natCast_sub_ne_zero (a b m : Nat) (ha : a < m) (hb : b < m) (hab : a ≠ b) :
    (b : ZMod m) - (a : ZMod m) ≠ 0 := by
  intro h
  have h2 : (b : ZMod m) = (a : ZMod m) := sub_eq_zero.mp h
  have h3 := (ZMod.natCast_eq_natCast_iff' _ _ _).1 h2
  rw [Nat.mod_eq_of_lt ha, Nat.mod_eq_of_lt hb] at h3
  exact hab h3.symm

/-- C14. General addition formula: for a prime `p` and two points other than
`(0, 0)` with coordinates below `p` and `x1 ≠ x2`, `zrtp_ecAdd` returns the
point `(x3, y3)` with coordinates below `p` such that, in the field `ZMod p`
and with the slope `L = (y2 - y1) * (x2 - x1)⁻¹` (where `x2 - x1` is not 0),
`x3 = L² - x1 - x2` and `y3 = L * (x1 - x3) - y1`. -/
theorem zrtp_ecAdd_chord (p x1 y1 x2 y2 : Nat) (hp : p.Prime)
    (h1 : ¬ (x1 = 0 ∧ y1 = 0)) (h2 : ¬ (x2 = 0 ∧ y2 = 0))
    (hx1 : x1 < p) (hy1 : y1 < p) (hx2 : x2 < p) (hy2 : y2 < p) (hx : x1 ≠ x2) :
    ((zrtp_ecAdd (x1, y1) (x2, y2) p).1 < p ∧ (zrtp_ecAdd (x1, y1) (x2, y2) p).2 < p) ∧
      (x2 : ZMod p) - (x1 : ZMod p) ≠ 0 ∧
      (((zrtp_ecAdd (x1, y1) (x2, y2) p).1 : Nat) : ZMod p)
        = (((y2 : ZMod p) - y1) * ((x2 : ZMod p) - x1)⁻¹) ^ 2 - x1 - x2 ∧
      (((zrtp_ecAdd (x1, y1) (x2, y2) p).2 : Nat) : ZMod p)
        = (((y2 : ZMod p) - y1) * ((x2 : ZMod p) - x1)⁻¹)
            * ((x1 : ZMod p) - ((zrtp_ecAdd (x1, y1) (x2, y2) p).1 : Nat)) - y1 := by
  have hlt := zrtp_ecAdd_lt (x1, y1) (x2, y2) p hp.pos hx1 hy1 hx2 hy2
  have hne : ¬ (x1 = x2 ∧ y1 = y2) := fun h => hx h.1
  have hadd : zrtp_ecAdd (x1, y1) (x2, y2) p
      = ecTail (ecGamma (x1, y1) (x2, y2) p) (x1, y1) (x2, y2) p := by
    simp only [zrtp_ecAdd, if_neg h1, if_neg h2, hx, false_and, if_false]
  have ht := ecTail_cast (ecGamma (x1, y1) (x2, y2) p) x1 y1 x2 y2 p hp.pos hx1 hy1 hx2
  have hg := ecGamma_chord_cast x1 y1 x2 y2 p hp hx1 hy1 hne
  refine ⟨hlt, natCast_sub_ne_zero x1 x2 p hx1 hx2 hx, ?_, ?_⟩
  · rw [hadd, ht.1, hg]
  · rw [hadd, ht.2, hg]

/-- Witness for C14: the points `(1, 2)` and `(3, 4)` modulo 7. -/
theorem zrtp_ecAdd_chord_witness :
    (Nat.Prime 7 ∧ ¬ ((1 : Nat) = 0 ∧ (2 : Nat) = 0) ∧ ¬ ((3 : Nat) = 0 ∧ (4 : Nat) = 0) ∧
        1 < 7 ∧ 2 < 7 ∧ 3 < 7 ∧ 4 < 7 ∧ (1 : Nat) ≠ 3) ∧
      (((zrtp_ecAdd (1, 2) (3, 4) 7).1 < 7 ∧ (zrtp_ecAdd (1, 2) (3, 4) 7).2 < 7) ∧
        ((3 : Nat) : ZMod 7) - ((1 : Nat) : ZMod 7) ≠ 0 ∧
        (((zrtp_ecAdd (1, 2) (3, 4) 7).1 : Nat) : ZMod 7)
          = ((((4 : Nat) : ZMod 7) - (2 : Nat)) * (((3 : Nat) : ZMod 7) - (1 : Nat))⁻¹) ^ 2
              - (1 : Nat) - (3 : Nat) ∧
        (((zrtp_ecAdd (1, 2) (3, 4) 7).2 : Nat) : ZMod 7)
          = ((((4 : Nat) : ZMod 7) - (2 : Nat)) * (((3 : Nat) : ZMod 7) - (1 : Nat))⁻¹)
              * (((1 : Nat) : ZMod 7) - ((zrtp_ecAdd (1, 2) (3, 4) 7).1 : Nat)) - (2 : Nat)) :=
  ⟨⟨by norm_num, by decide, by decide, by decide, by decide, by decide, by decide, by decide⟩,
    zrtp_ecAdd_chord 7 1 2 3 4 (by norm_num) (by decide) (by decide) (by decide) (by decide)
      (by decide) (by decide) (by decide)⟩

/-- Twice a non-zero reduced value is not 0 in `ZMod p`, for a prime `p > 2`. -/
theorem two_mul_natCast_ne_zero (y p : Nat) (hp : p.Prime) (hp2 : 2 < p) (hy : y < p)
    (hy0 : y ≠ 0) : 2 * (y : ZMod p) ≠ 0 := by
  intro h
  have h2 : ((2 * y : Nat) : ZMod p) = 0 := by push_cast; exact h
  have hd : p ∣ 2 * y := (ZMod.natCast_zmod_eq_zero_iff_dvd _ _).1 h2
  rcases (Nat.Prime.dvd_mul hp).1 hd with h3 | h3
  · have := Nat.le_of_dvd (by decide) h3; omega
  · have := Nat.le_of_dvd (Nat.pos_of_ne_zero hy0) h3; omega

/-- C15. Doubling formula: for a prime `p > 3` and a point `(x, y)` with
coordinates below `p`, `y ≠ 0` and `(x + x) mod p ≠ 0`, `zrtp_ecAdd` of the
point and itself returns the point `(x3, y3)` with coordinates below `p` such
that, in the field `ZMod p` and with the slope `L = (3x² - 3) * (2y)⁻¹` (where
`2y` is not 0), `x3 = L² - 2x` and `y3 = L * (x - x3) - y`. -/
theorem zrtp_ecAdd_tangent (p x y : Nat) (hp : p.Prime) (hp3 : 3 < p)
    (hx : x < p) (hy : y < p) (hy0 : y ≠ 0) (hxx : (x + x) % p ≠ 0) :
    ((zrtp_ecAdd (x, y) (x, y) p).1 < p ∧ (zrtp_ecAdd (x, y) (x, y) p).2 < p) ∧
      2 * (y : ZMod p) ≠ 0 ∧
      (((zrtp_ecAdd (x, y) (x, y) p).1 : Nat) : ZMod p)
        = ((3 * (x : ZMod p) ^ 2 - 3) * (2 * (y : ZMod p))⁻¹) ^ 2 - 2 * x ∧
      (((zrtp_ecAdd (x, y) (x, y) p).2 : Nat) : ZMod p)
        = ((3 * (x : ZMod p) ^ 2 - 3) * (2 * (y : ZMod p))⁻¹)
            * ((x : ZMod p) - ((zrtp_ecAdd (x, y) (x, y) p).1 : Nat)) - y := by
  have hlt := zrtp_ecAdd_lt (x, y) (x, y) p hp.pos hx hy hx hy
  have h1 : ¬ (x = 0 ∧ y = 0) := fun h => hy0 h.2
  have h3 : ¬ (bnAddMod_ x x p = 0) := by
    rw [bnAddMod__mod x x p hx hx]; exact hxx
  have hadd : zrtp_ecAdd (x, y) (x, y) p
      = ecTail (ecGamma (x, y) (x, y) p) (x, y) (x, y) p := by
    simp only [zrtp_ecAdd, if_neg h1, true_and, if_neg h3]
  have ht := ecTail_cast (ecGamma (x, y) (x, y) p) x y x y p hp.pos hx hy hx
  have hg := ecGamma_tangent_cast x y p hp hp3
  refine ⟨hlt, two_mul_natCast_ne_zero y p hp (by omega) hy hy0, ?_, ?_⟩
  · rw [hadd, ht.1, hg]; ring
  · rw [hadd, ht.2, hg]

/-- Witness for C15: the point `(2, 3)` modulo 7. -/
theorem zrtp_ecAdd_tangent_witness :
    (Nat.Prime 7 ∧ 3 < 7 ∧ 2 < 7 ∧ 3 < 7 ∧ (3 : Nat) ≠ 0 ∧ (2 + 2) % 7 ≠ 0) ∧
      (((zrtp_ecAdd (2, 3) (2, 3) 7).1 < 7 ∧ (zrtp_ecAdd (2, 3) (2, 3) 7).2 < 7) ∧
        2 * ((3 : Nat) : ZMod 7) ≠ 0 ∧
        (((zrtp_ecAdd (2, 3) (2, 3) 7).1 : Nat) : ZMod 7)
          = ((3 * ((2 : Nat) : ZMod 7) ^ 2 - 3) * (2 * ((3 : Nat) : ZMod 7))⁻¹) ^ 2
              - 2 * (2 : Nat) ∧
        (((zrtp_ecAdd (2, 3) (2, 3) 7).2 : Nat) : ZMod 7)
          = ((3 * ((2 : Nat) : ZMod 7) ^ 2 - 3) * (2 * ((3 : Nat) : ZMod 7))⁻¹)
              * (((2 : Nat) : ZMod 7) - ((zrtp_ecAdd (2, 3) (2, 3) 7).1 : Nat)) - (3 : Nat)) :=
  ⟨⟨by norm_num, by decide, by decide, by decide, by decide, by decide⟩,
    zrtp_ecAdd_tangent 7 2 3 (by norm_num) (by decide) (by decide) (by decide) (by decide)
      (by decide)⟩

/-! ## The test commented "p1 == -p2" -/

/-- For an odd prime `p` and reduced x coordinates, the test of `zrtp_ecAdd`
commented "p1 == -p2" holds exactly when both x coordinates are 0; the y
coordinates play no part in it. -/
theorem ecAdd_negation_test_iff (p x1 x2 : Nat) (hp : p.Prime) (hp2 : 2 < p)
    (hx1 : x1 < p) (hx2 : x2 < p) :
    (x1 = x2 ∧ bnAddMod_ x1 x2 p = 0) ↔ (x1 = 0 ∧ x2 = 0) := by
  rw [bnAddMod__mod x1 x2 p hx1 hx2]
  constructor
  · rintro ⟨rfl, h⟩
    have hd : p ∣ 2 * x1 := by
      have := Nat.dvd_of_mod_eq_zero h
      rwa [← two_mul] at this
    rcases (Nat.Prime.dvd_mul hp).1 hd with h3 | h3
    · have := Nat.le_of_dvd (by decide) h3; omega
    · rcases Nat.eq_zero_or_pos x1 with h0 | h0
      · exact ⟨h0, h0⟩
      · have := Nat.le_of_dvd h0 h3; omega
  · rintro ⟨rfl, rfl⟩
    exact ⟨rfl, by simp⟩

/-- C16, evaluated on the code: for the point `(0, 1)` of the curve
`y² = x³ - 3x + 1` modulo the odd prime 5, and for the point with `x = 0` of
the 256-bit curve, the test commented "p1 == -p2" holds when the point is
added to itself, so `zrtp_ecAdd` returns `(0, 0)`, although the second operand
is not the negation of the first: `(y1 + y2) mod p` is not 0. -/
theorem zrtp_ecAdd_negation_test_unsound :
    (Nat.Prime 5 ∧ ecOnCurve 0 1 1 5 ∧
        ((0 : Nat) = 0 ∧ bnAddMod_ 0 0 5 = 0) ∧ zrtp_ecAdd (0, 1) (0, 1) 5 = (0, 0) ∧
        (1 + 1) % 5 ≠ 0) ∧
      (ecOnCurve 0 0x66485c780e2f83d72433bd5d84a06bb6541c2af31dae871728bf856a174f93f4 (bnInsertBigBytes b_256_data) P_256 ∧ 0x66485c780e2f83d72433bd5d84a06bb6541c2af31dae871728bf856a174f93f4 < P_256 ∧
        ((0 : Nat) = 0 ∧ bnAddMod_ 0 0 P_256 = 0) ∧
        zrtp_ecAdd (0, 0x66485c780e2f83d72433bd5d84a06bb6541c2af31dae871728bf856a174f93f4) (0, 0x66485c780e2f83d72433bd5d84a06bb6541c2af31dae871728bf856a174f93f4) P_256 = (0, 0) ∧
        (0x66485c780e2f83d72433bd5d84a06bb6541c2af31dae871728bf856a174f93f4 + 0x66485c780e2f83d72433bd5d84a06bb6541c2af31dae871728bf856a174f93f4) % P_256 ≠ 0) := by
  refine ⟨⟨by norm_num, by decide, by decide, by decide, by decide⟩, ?_⟩
  decide!

/-! ## Closure of the point addition on the curve -/

/-- The curve equation read in `ZMod p`. -/
theorem ecOnCurve_iff (x y b p : Nat) :
    ecOnCurve x y b p ↔ (y : ZMod p) ^ 2 = (x : ZMod p) ^ 3 - 3 * (x : ZMod p) + (b : ZMod p) := by
  unfold ecOnCurve
  rw [← ZMod.natCast_eq_natCast_iff']
  push_cast
  constructor
  · intro h; linear_combination h
  · intro h; linear_combination h

/-- The curve equation in `ZMod p` is the equation of the Weierstrass curve
with coefficients `a₁ = a₂ = a₃ = 0`, `a₄ = -3` and `a₆ = b`. -/
theorem ecOnCurve_iff_equation (x y b p : Nat) :
    ecOnCurve x y b p ↔
      WeierstrassCurve.Affine.Equation
        ({ a₁ := 0, a₂ := 0, a₃ := 0, a₄ := -3, a₆ := (b : ZMod p) } :
          WeierstrassCurve.Affine (ZMod p)) (x : ZMod p) (y : ZMod p) := by
  rw [ecOnCurve_iff, WeierstrassCurve.Affine.equation_iff]
  constructor
  · intro h; linear_combination h
  · intro h; linear_combination h

/-- Equal values of `ZMod m` come from equal reduced numbers. -/
theorem natCast_inj_of_lt (a b m : Nat) (ha : a < m) (hb : b < m)
    (h : (a : ZMod m) = (b : ZMod m)) : a = b := by
  have h3 := (ZMod.natCast_eq_natCast_iff' _ _ _).1 h
  rwa [Nat.mod_eq_of_lt ha, Nat.mod_eq_of_lt hb] at h3

/-- C18. Closure on the curve: for a prime `p > 3` and a coefficient `b`, if
each of two points with coordinates below `p` is `(0, 0)` or satisfies
`y² = x³ - 3x + b (mod p)`, and the second is not the negation of the first
(not both `x1 = x2` and `(y1 + y2) mod p = 0`), then the result of
`zrtp_ecAdd` is `(0, 0)` or satisfies the curve equation. -/
theorem zrtp_ecAdd_on_curve (p b x1 y1 x2 y2 : Nat) (hp : p.Prime) (hp3 : 3 < p)
    (hx1 : x1 < p) (hy1 : y1 < p) (hx2 : x2 < p) (hy2 : y2 < p)
    (hc1 : (x1 = 0 ∧ y1 = 0) ∨ ecOnCurve x1 y1 b p)
    (hc2 : (x2 = 0 ∧ y2 = 0) ∨ ecOnCurve x2 y2 b p)
    (hneg : ¬ (x1 = x2 ∧ (y1 + y2) % p = 0)) :
    ((zrtp_ecAdd (x1, y1) (x2, y2) p).1 = 0 ∧ (zrtp_ecAdd (x1, y1) (x2, y2) p).2 = 0) ∨
      ecOnCurve (zrtp_ecAdd (x1, y1) (x2, y2) p).1 (zrtp_ecAdd (x1, y1) (x2, y2) p).2 b p := by
  haveI := Fact.mk hp
  by_cases a1 : x1 = 0 ∧ y1 = 0
  · have hr : zrtp_ecAdd (x1, y1) (x2, y2) p = (x2, y2) := by
      simp only [zrtp_ecAdd, if_pos a1]
    rw [hr]; exact hc2
  by_cases a2 : x2 = 0 ∧ y2 = 0
  · have hr : zrtp_ecAdd (x1, y1) (x2, y2) p = (x1, y1) := by
      simp only [zrtp_ecAdd, if_neg a1, if_pos a2]
    rw [hr]; exact hc1
  by_cases a3 : x1 = x2 ∧ bnAddMod_ x1 x2 p = 0
  · have hr : zrtp_ecAdd (x1, y1) (x2, y2) p = (0, 0) := by
      simp only [zrtp_ecAdd, if_neg a1, if_neg a2, if_pos a3]
    rw [hr]; exact Or.inl ⟨rfl, rfl⟩
  have hr : zrtp_ecAdd (x1, y1) (x2, y2) p
      = ecTail (ecGamma (x1, y1) (x2, y2) p) (x1, y1) (x2, y2) p := by
    simp only [zrtp_ecAdd, if_neg a1, if_neg a2, if_neg a3]
  have on1 : ecOnCurve x1 y1 b p := hc1.resolve_left a1
  have on2 : ecOnCurve x2 y2 b p := hc2.resolve_left a2
  have E1 := (ecOnCurve_iff_equation x1 y1 b p).1 on1
  have E2 := (ecOnCurve_iff_equation x2 y2 b p).1 on2
  have hxy : (x1 : ZMod p) = (x2 : ZMod p) →
      (y1 : ZMod p) ≠ WeierstrassCurve.Affine.negY
        ({ a₁ := 0, a₂ := 0, a₃ := 0, a₄ := -3, a₆ := (b : ZMod p) } :
          WeierstrassCurve.Affine (ZMod p)) (x2 : ZMod p) (y2 : ZMod p) := by
    intro hx hy
    apply hneg
    refine ⟨natCast_inj_of_lt x1 x2 p hx1 hx2 hx, ?_⟩
    have h0 : ((y1 + y2 : Nat) : ZMod p) = ((0 : Nat) : ZMod p) := by
      simp only [WeierstrassCurve.Affine.negY] at hy
      push_cast
      rw [hy]; ring
    have := (ZMod.natCast_eq_natCast_iff' _ _ _).1 h0
    simpa using this
  have Eadd := WeierstrassCurve.Affine.equation_add E1 E2 hxy
  have ht := ecTail_cast (ecGamma (x1, y1) (x2, y2) p) x1 y1 x2 y2 p hp.pos hx1 hy1 hx2
  have hslope : ((ecGamma (x1, y1) (x2, y2) p : Nat) : ZMod p)
      = WeierstrassCurve.Affine.slope
        ({ a₁ := 0, a₂ := 0, a₃ := 0, a₄ := -3, a₆ := (b : ZMod p) } :
          WeierstrassCurve.Affine (ZMod p)) (x1 : ZMod p) (x2 : ZMod p) (y1 : ZMod p)
            (y2 : ZMod p) := by
    by_cases hx : x1 = x2
    · subst hx
      have hyF : (y1 : ZMod p) = (y2 : ZMod p) := by
        have h1 := (ecOnCurve_iff x1 y1 b p).1 on1
        have h2 := (ecOnCurve_iff x1 y2 b p).1 on2
        have hsq : ((y1 : ZMod p) - y2) * ((y1 : ZMod p) + y2) = 0 := by
          linear_combination h1 - h2
        rcases mul_eq_zero.mp hsq with h | h
        · exact sub_eq_zero.mp h
        · exfalso
          apply hxy rfl
          simp only [WeierstrassCurve.Affine.negY]
          linear_combination h
      have hy : y1 = y2 := natCast_inj_of_lt y1 y2 p hy1 hy2 hyF
      subst hy
      rw [ecGamma_tangent_cast x1 y1 p hp hp3,
        WeierstrassCurve.Affine.slope_of_Y_ne rfl (hxy rfl)]
      simp only [WeierstrassCurve.Affine.negY]
      rw [div_eq_mul_inv]
      congr 1
      · ring
      · congr 1; ring
    · have hne : ¬ (x1 = x2 ∧ y1 = y2) := fun h => hx h.1
      have hxF : (x1 : ZMod p) ≠ (x2 : ZMod p) :=
        fun h => hx (natCast_inj_of_lt x1 x2 p hx1 hx2 h)
      rw [ecGamma_chord_cast x1 y1 x2 y2 p hp hx1 hy1 hne,
        WeierstrassCurve.Affine.slope_of_X_ne hxF, ← neg_sub (y1 : ZMod p),
        ← neg_sub (x1 : ZMod p), inv_neg, neg_mul_neg, div_eq_mul_inv]
  right
  rw [hr, ecOnCurve_iff_equation]
  have hX : (((ecTail (ecGamma (x1, y1) (x2, y2) p) (x1, y1) (x2, y2) p).1 : Nat) : ZMod p)
      = WeierstrassCurve.Affine.addX
        ({ a₁ := 0, a₂ := 0, a₃ := 0, a₄ := -3, a₆ := (b : ZMod p) } :
          WeierstrassCurve.Affine (ZMod p)) (x1 : ZMod p) (x2 : ZMod p)
          (WeierstrassCurve.Affine.slope
            ({ a₁ := 0, a₂ := 0, a₃ := 0, a₄ := -3, a₆ := (b : ZMod p) } :
              WeierstrassCurve.Affine (ZMod p)) (x1 : ZMod p) (x2 : ZMod p) (y1 : ZMod p)
                (y2 : ZMod p)) := by
    rw [ht.1, hslope]
    simp only [WeierstrassCurve.Affine.addX]
    ring
  have hY : (((ecTail (ecGamma (x1, y1) (x2, y2) p) (x1, y1) (x2, y2) p).2 : Nat) : ZMod p)
      = WeierstrassCurve.Affine.addY
        ({ a₁ := 0, a₂ := 0, a₃ := 0, a₄ := -3, a₆ := (b : ZMod p) } :
          WeierstrassCurve.Affine (ZMod p)) (x1 : ZMod p) (x2 : ZMod p) (y1 : ZMod p)
          (WeierstrassCurve.Affine.slope
            ({ a₁ := 0, a₂ := 0, a₃ := 0, a₄ := -3, a₆ := (b : ZMod p) } :
              WeierstrassCurve.Affine (ZMod p)) (x1 : ZMod p) (x2 : ZMod p) (y1 : ZMod p)
                (y2 : ZMod p)) := by
    rw [ht.2, ht.1, hslope]
    simp only [WeierstrassCurve.Affine.addY, WeierstrassCurve.Affine.negAddY,
      WeierstrassCurve.Affine.negY, WeierstrassCurve.Affine.addX]
    ring
  rw [hX, hY]
  exact Eadd

/-- Witness for C18: the points `(1, 2)` and `(3, 2)` of the curve
`y² = x³ - 3x + 1` modulo 5. -/
theorem zrtp_ecAdd_on_curve_witness :
    (Nat.Prime 5 ∧ 3 < 5 ∧ 1 < 5 ∧ 2 < 5 ∧ 3 < 5 ∧ 2 < 5 ∧
        (((1 : Nat) = 0 ∧ (2 : Nat) = 0) ∨ ecOnCurve 1 2 1 5) ∧
        (((3 : Nat) = 0 ∧ (2 : Nat) = 0) ∨ ecOnCurve 3 2 1 5) ∧
        ¬ ((1 : Nat) = 3 ∧ (2 + 2) % 5 = 0)) ∧
      (((zrtp_ecAdd (1, 2) (3, 2) 5).1 = 0 ∧ (zrtp_ecAdd (1, 2) (3, 2) 5).2 = 0) ∨
        ecOnCurve (zrtp_ecAdd (1, 2) (3, 2) 5).1 (zrtp_ecAdd (1, 2) (3, 2) 5).2 1 5) :=
  ⟨⟨by norm_num, by decide, by decide, by decide, by decide, by decide, by decide, by decide,
      by decide⟩,
    zrtp_ecAdd_on_curve 5 1 1 2 3 2 (by norm_num) (by decide) (by decide) (by decide)
      (by decide) (by decide) (by decide) (by decide) (by decide)⟩

end Zrtp
